import Mathlib

/-!
Verification of the JSON-extraction-and-repair pipeline of `script.py`
(command-line customer-support assistant).

The development embeds, faithfully to the Python source:
  - the character-level repair pipeline of `extract_user_info`
    (markdown-fence stripping, first-brace/last-brace slicing,
    trailing-comma removal, naive brace balancing);
  - the semantics of Python `json.loads` on the JSON grammar
    (strict strings, Python number token regex, last-wins duplicate
    keys with first-insertion order);
  - the field validation and defaulting of `extract_user_info`,
    where an uncaught Python exception is modelled as `none`;
  - the `ollama_generate` wrapper over an opaque subprocess outcome;
  - the interactive `main` loop with its per-turn insert and its
    error channel (stderr).

Strings are processed as `List Char`; Lean `String` appears only at
the outermost interfaces.
-/

/-- JSON whitespace accepted by the Python json scanner: space, tab,
newline, carriage return. -/
def isJsonWs (c : Char) : Bool :=
  c = ' ' || c = '\t' || c = '\n' || c = '\r'

/-- Whitespace stripped by Python `str.strip()`: the six ASCII
whitespace characters. -/
def isPySpace (c : Char) : Bool :=
  c = ' ' || c = '\t' || c = '\n' || c = '\r' || c = '\x0b' || c = '\x0c'

/-- Python `str.strip()` on a character list. -/
def pyStrip (cs : List Char) : List Char :=
  ((cs.dropWhile isPySpace).reverse.dropWhile isPySpace).reverse

/-- Python `str.strip()` on a `String`. -/
def pyStripStr (s : String) : String :=
  String.mk (pyStrip s.data)

/-- Python `str.lower()` (ASCII-relevant part). -/
def pyLower (s : String) : String :=
  String.mk (s.data.map Char.toLower)

/-- Decoded JSON values as produced by Python `json.loads`.
Numbers keep their source token text: the only consumers in the
script (`str(...)` membership test in the allowed query types, and
`int(...)` in the insert) are modelled from that text. Objects are
Python dicts in insertion order. -/
inductive Json where
  | null : Json
  | bool : Bool → Json
  | num : String → Json
  | str : String → Json
  | arr : List Json → Json
  | obj : List (String × Json) → Json
deriving Repr

/-- A Python dict with string keys, in insertion order. -/
abbrev PyDict := List (String × Json)

/-- Python dict lookup `d[k]` / `d.get(k)` as an option. -/
def pyGet (d : PyDict) (k : String) : Option Json :=
  match d with
  | [] => none
  | (k₂, v) :: rest => if k₂ = k then some v else pyGet rest k

/-- Python dict assignment `d[k] = v`: replace in place if the key is
present, otherwise append at the end (insertion order). -/
def pyAssign (d : PyDict) (k : String) (v : Json) : PyDict :=
  match d with
  | [] => [(k, v)]
  | (k₂, w) :: rest =>
      if k₂ = k then (k₂, v) :: rest else (k₂, w) :: pyAssign rest k v

/-- Python `d.setdefault(k, v)`: insert only when the key is absent. -/
def pySetdefault (d : PyDict) (k : String) (v : Json) : PyDict :=
  match pyGet d k with
  | some _ => d
  | none => d ++ [(k, v)]

/-- Body of a JSON string literal, after the opening quote.
Mirrors the strict Python scanner: raw control characters are
rejected, the standard escapes and `\uXXXX` (with surrogate pairs)
are decoded. Lone surrogates, which Python would keep as unpaired
code units, are rejected here since Lean characters are scalar
values; no claim depends on them. -/
def hexVal (c : Char) : Option Nat :=
  if '0' ≤ c ∧ c ≤ '9' then some (c.toNat - '0'.toNat)
  else if 'a' ≤ c ∧ c ≤ 'f' then some (c.toNat - 'a'.toNat + 10)
  else if 'A' ≤ c ∧ c ≤ 'F' then some (c.toNat - 'A'.toNat + 10)
  else none

/-- Decode four hex digits. -/
def hex4 (a b c d : Char) : Option Nat := do
  let x₁ ← hexVal a
  let x₂ ← hexVal b
  let x₃ ← hexVal c
  let x₄ ← hexVal d
  pure (((x₁ * 16 + x₂) * 16 + x₃) * 16 + x₄)

/-- A Unicode code point as a Lean character, when valid. -/
def charOfCode (n : Nat) : Option Char :=
  if h : n.isValidChar then some (Char.ofNatAux n h) else none

/-- The escaped-character table of the Python string scanner: the
content character for a one-character escape, if the escape is
legal. -/
def escChar (e : Char) : Option Char :=
  if e = '"' then some '"'
  else if e = '\\' then some '\\'
  else if e = '/' then some '/'
  else if e = 'b' then some '\x08'
  else if e = 'f' then some '\x0c'
  else if e = 'n' then some '\n'
  else if e = 'r' then some '\r'
  else if e = 't' then some '\t'
  else none

/-- Decode a `\uXXXX` escape at the given position (the characters
after the `u`): four hex digits, combined with a following
`\uXXXX` low surrogate when the first code unit is a high
surrogate. Returns the decoded character and the remaining text. -/
def parseUEsc (r : List Char) : Option (Char × List Char) :=
  match r with
  | h₁ :: h₂ :: h₃ :: h₄ :: r₂ =>
      match hex4 h₁ h₂ h₃ h₄ with
      | none => none
      | some code =>
          if 0xD800 ≤ code ∧ code ≤ 0xDBFF then
            match r₂ with
            | b₁ :: b₂ :: g₁ :: g₂ :: g₃ :: g₄ :: r₃ =>
                if b₁ = '\\' ∧ b₂ = 'u' then
                  match hex4 g₁ g₂ g₃ g₄ with
                  | none => none
                  | some lo =>
                      if 0xDC00 ≤ lo ∧ lo ≤ 0xDFFF then
                        match charOfCode (0x10000 +
                            (code - 0xD800) * 0x400 + (lo - 0xDC00)) with
                        | some ch => some (ch, r₃)
                        | none => none
                      else none
                else none
            | _ => none
          else
            match charOfCode code with
            | some ch => some (ch, r₂)
            | none => none
  | _ => none

def parseStringBody : Nat → List Char → List Char → Option (String × List Char)
  | 0, _, _ => none
  | n + 1, acc, cs =>
      match cs with
      | [] => none
      | c :: r =>
          if c = '"' then some (String.mk acc.reverse, r)
          else if c = '\\' then
            match r with
            | [] => none
            | e :: r₁ =>
                match escChar e with
                | some ce => parseStringBody n (ce :: acc) r₁
                | none =>
                    if e = 'u' then
                      match parseUEsc r₁ with
                      | some (ch, r₂) => parseStringBody n (ch :: acc) r₂
                      | none => none
                    else none
          else if c.toNat < 0x20 then none
          else parseStringBody n (c :: acc) r

/-- The optional fraction group of the Python json NUMBER_RE token:
`(\.[0-9]+)?`, regex-style (a group that cannot complete is not
consumed at all). Returns the consumed group and the remainder. -/
def fracSplit (rest : List Char) : List Char × List Char :=
  match rest with
  | [] => ([], [])
  | c :: u =>
      if c = '.' then
        match u with
        | d :: _ =>
            if d.isDigit then
              ('.' :: u.takeWhile Char.isDigit, u.dropWhile Char.isDigit)
            else ([], c :: u)
        | [] => ([], c :: u)
      else ([], c :: u)

/-- The optional exponent group of the Python json NUMBER_RE token:
`([eE][+-]?[0-9]+)?`, regex-style. -/
def expoSplit (r₁ : List Char) : List Char × List Char :=
  match r₁ with
  | [] => ([], [])
  | e :: u =>
      if e = 'e' ∨ e = 'E' then
        match u with
        | s :: v =>
            if s = '+' ∨ s = '-' then
              match v with
              | d :: _ =>
                  if d.isDigit then
                    (e :: s :: v.takeWhile Char.isDigit, v.dropWhile Char.isDigit)
                  else ([], e :: u)
              | [] => ([], e :: u)
            else if s.isDigit then
              (e :: u.takeWhile Char.isDigit, u.dropWhile Char.isDigit)
            else ([], e :: u)
        | [] => ([], e :: u)
      else ([], e :: u)

/-- Integer part and the two optional groups, after the optional
sign: `(0 | [1-9][0-9]*) (\.[0-9]+)? ([eE][+-]?[0-9]+)?`. -/
def numTokCore (sgn cs₁ : List Char) : Option (List Char × List Char) :=
  match cs₁ with
  | [] => none
  | c :: t =>
      if c = '0' then
        let f := fracSplit t
        let ex := expoSplit f.2
        some (sgn ++ '0' :: (f.1 ++ ex.1), ex.2)
      else if c.isDigit then
        let f := fracSplit (t.dropWhile Char.isDigit)
        let ex := expoSplit f.2
        some (sgn ++ c :: (t.takeWhile Char.isDigit ++ (f.1 ++ ex.1)), ex.2)
      else none

/-- The Python json NUMBER_RE token:
`-? (0 | [1-9][0-9]*) (\.[0-9]+)? ([eE][+-]?[0-9]+)?`.
Returns the consumed token text and the remaining characters. -/
def parseNumTok (cs : List Char) : Option (List Char × List Char) :=
  match cs with
  | [] => none
  | c :: t => if c = '-' then numTokCore ['-'] t else numTokCore [] (c :: t)

mutual

/-- One JSON value, Python `json.loads` grammar, preceded by optional
whitespace. Fuel bounds the recursion depth; `jsonParse` supplies
enough fuel for any input it is given. -/
def parseValue : Nat → List Char → Option (Json × List Char)
  | 0, _ => none
  | n + 1, cs =>
      match cs.dropWhile isJsonWs with
      | [] => none
      | c :: r =>
          if c = '"' then
            match parseStringBody (r.length + 1) [] r with
            | some (s, r₂) => some (.str s, r₂)
            | none => none
          else if c = '{' then
            match r.dropWhile isJsonWs with
            | c₂ :: r₂ =>
                if c₂ = '}' then some (.obj [], r₂) else parseMembers n r []
            | [] => parseMembers n r []
          else if c = '[' then
            match r.dropWhile isJsonWs with
            | c₂ :: r₂ =>
                if c₂ = ']' then some (.arr [], r₂) else parseElems n r []
            | [] => parseElems n r []
          else if c = 't' then
            match r with
            | x₁ :: x₂ :: x₃ :: r₄ =>
                if x₁ = 'r' ∧ x₂ = 'u' ∧ x₃ = 'e' then some (.bool true, r₄)
                else none
            | _ => none
          else if c = 'f' then
            match r with
            | x₁ :: x₂ :: x₃ :: x₄ :: r₄ =>
                if x₁ = 'a' ∧ x₂ = 'l' ∧ x₃ = 's' ∧ x₄ = 'e' then
                  some (.bool false, r₄)
                else none
            | _ => none
          else if c = 'n' then
            match r with
            | x₁ :: x₂ :: x₃ :: r₄ =>
                if x₁ = 'u' ∧ x₂ = 'l' ∧ x₃ = 'l' then some (.null, r₄)
                else none
            | _ => none
          else if c = '-' ∨ c.isDigit then
            match parseNumTok (c :: r) with
            | some (tok, r₂) => some (.num (String.mk tok), r₂)
            | none => none
          else none

/-- Object members after the opening brace (nonempty object):
`ws "key" ws : value ws (, …)* }`. Pairs are entered with Python
dict semantics (last value wins, first insertion position kept). -/
def parseMembers : Nat → List Char → PyDict → Option (Json × List Char)
  | 0, _, _ => none
  | n + 1, cs, acc =>
      match cs.dropWhile isJsonWs with
      | [] => none
      | c :: r =>
          if c = '"' then
            match parseStringBody (r.length + 1) [] r with
            | some (k, r₁) =>
                match r₁.dropWhile isJsonWs with
                | [] => none
                | c₂ :: r₂ =>
                    if c₂ = ':' then
                      match parseValue n r₂ with
                      | some (v, r₃) =>
                          match r₃.dropWhile isJsonWs with
                          | [] => none
                          | c₃ :: r₄ =>
                              if c₃ = ',' then parseMembers n r₄ (pyAssign acc k v)
                              else if c₃ = '}' then
                                some (.obj (pyAssign acc k v), r₄)
                              else none
                      | none => none
                    else none
            | none => none
          else none

/-- Array elements after the opening bracket (nonempty array). -/
def parseElems : Nat → List Char → List Json → Option (Json × List Char)
  | 0, _, _ => none
  | n + 1, cs, acc =>
      match parseValue n cs with
      | some (v, r₁) =>
          match r₁.dropWhile isJsonWs with
          | [] => none
          | c :: r₂ =>
              if c = ',' then parseElems n r₂ (acc ++ [v])
              else if c = ']' then some (.arr (acc ++ [v]), r₂)
              else none
      | none => none

end

/-- Python `json.loads` on a character list: one JSON value with
optional surrounding whitespace, nothing else. -/
def jsonParse (cs : List Char) : Option Json :=
  match parseValue (cs.length + 1) cs with
  | some (v, rest) => if rest.dropWhile isJsonWs = [] then some v else none
  | none => none

theorem length_dropWhile_le (p : Char → Bool) (l : List Char) :
    (l.dropWhile p).length ≤ l.length := by
  induction l with
  | nil => simp
  | cons a l ih => rw [List.dropWhile_cons]; split <;> simp <;> omega

/-- Does the text begin with a triple backtick? -/
def startsFence (l : List Char) : Bool :=
  match l with
  | a :: b :: c :: _ => a = '`' && b = '`' && c = '`'
  | _ => false

theorem startsFence_shape (l : List Char) (h : startsFence l = true) :
    ∃ t, l = '`' :: '`' :: '`' :: t := by
  match l with
  | [] => simp [startsFence] at h
  | [a] => simp [startsFence] at h
  | [a, b] => simp [startsFence] at h
  | a :: b :: c :: t =>
      simp only [startsFence, Bool.and_eq_true, decide_eq_true_eq] at h
      obtain ⟨⟨ha, hb⟩, hc⟩ := h
      exact ⟨t, by rw [ha, hb, hc]⟩

/-- Characters following the first triple backtick, if any. -/
def findFence : List Char → Option (List Char)
  | [] => none
  | c :: cs => if startsFence (c :: cs) then some ((c :: cs).drop 3) else findFence cs

theorem findFence_length :
    ∀ cs r, findFence cs = some r → r.length + 3 ≤ cs.length := by
  intro cs
  induction cs with
  | nil => intro r h; simp [findFence] at h
  | cons c cs ih =>
      intro r h
      rw [findFence] at h
      split at h
      · rename_i hs
        obtain ⟨t, ht⟩ := startsFence_shape _ hs
        simp only [Option.some.injEq] at h
        subst h
        simp only [List.length_drop, ht, List.length_cons]
        omega
      · have := ih r h
        simp only [List.length_cons]
        omega

/-- Step 1 of the repair pipeline, with explicit fuel (any fuel at
least the length of the text gives the scan result; fuel only serves
structural recursion):
Python `re.sub(r"(three backticks).*?(three backticks)", "", raw, flags=DOTALL)`.
Scanning left to right, each fenced region (from a triple backtick to
the next one, inclusive) is removed entirely; text with no complete
fenced region is kept as is. -/
def fenceStripGo : Nat → List Char → List Char
  | 0, cs => cs
  | _ + 1, [] => []
  | n + 1, c :: cs =>
      if startsFence (c :: cs) then
        match findFence ((c :: cs).drop 3) with
        | some rest => fenceStripGo n rest
        | none => c :: cs
      else c :: fenceStripGo n cs

/-- Step 1 of the repair pipeline at its canonical fuel. -/
def fenceStrip (cs : List Char) : List Char :=
  fenceStripGo cs.length cs

/-- Index of the last closing brace, Python `raw.rfind("}")`. -/
def lastBraceIdx (cs : List Char) : Option Nat :=
  match cs.reverse.findIdx? (· = '}') with
  | some i => some (cs.length - 1 - i)
  | none => none

/-- Step 2 of the repair pipeline: slice from the first `{` through
the last `}` inclusive when both exist, else keep the text as is
(Python `raw[start:end+1]`, which is empty when the last `}` precedes
the first `{`). -/
def sliceBraces (cs : List Char) : List Char :=
  match cs.findIdx? (· = '{'), lastBraceIdx cs with
  | some s, some e => (cs.take (e + 1)).drop s
  | _, _ => cs

/-- Does a match of the trailing-comma pattern `,\s*(?=[}\]])` start
at the head of the text? -/
def commaCloseAt : List Char → Bool
  | ',' :: cs =>
      match cs.dropWhile isPySpace with
      | c :: _ => c = '}' || c = ']'
      | [] => false
  | _ => false

/-- Step 3 of the repair pipeline, with explicit fuel (any fuel at
least the length of the text gives the scan result):
Python `re.sub(r",\s*(?=[}\]])", "", blob)`: every comma followed by
optional whitespace and a closing brace or bracket is removed along
with that whitespace (the closing character is a lookahead and is
kept). -/
def commaStripGo : Nat → List Char → List Char
  | 0, cs => cs
  | _ + 1, [] => []
  | n + 1, ',' :: cs =>
      match cs.dropWhile isPySpace with
      | c :: rest =>
          if c = '}' || c = ']' then commaStripGo n (c :: rest)
          else ',' :: commaStripGo n cs
      | [] => ',' :: commaStripGo n cs
  | n + 1, c :: cs => c :: commaStripGo n cs

/-- Step 3 of the repair pipeline at its canonical fuel. -/
def commaStrip (cs : List Char) : List Char :=
  commaStripGo cs.length cs

/-- Step 4 of the repair pipeline: append one closing brace per
missing one when opening braces outnumber closing braces. -/
def braceBalance (cs : List Char) : List Char :=
  if cs.count '}' < cs.count '{' then
    cs ++ List.replicate (cs.count '{' - cs.count '}') '}'
  else cs

/-- The full repair pipeline of `extract_user_info` applied to a
nonempty raw response (source lines 130 to 142): strip fences and
surrounding whitespace, slice to the brace-delimited block, drop
trailing commas, balance braces. -/
def repairBlob (cs : List Char) : List Char :=
  braceBalance (commaStrip (sliceBraces (pyStrip (fenceStrip cs))))

/-- A single quote character, used by the Python repr of strings. -/
def squote : String := String.mk [Char.ofNat 39]

/-- Python `repr` of a decoded JSON value (the form `str` uses inside
containers). Escaping inside rendered strings is simplified; the
script consumes this text only through membership in the five allowed
query types, which no container or numeric rendering can satisfy
either way, since those always contain a bracket or a digit. -/
def pyRepr : Json → String
  | .null => "None"
  | .bool true => "True"
  | .bool false => "False"
  | .num raw => raw
  | .str s => squote ++ s ++ squote
  | .arr xs => "[" ++ String.intercalate ", " (xs.attach.map fun x => pyRepr x.1) ++ "]"
  | .obj fs =>
      "\x7b" ++
        String.intercalate ", "
          (fs.attach.map fun f => squote ++ f.1.1 ++ squote ++ ": " ++ pyRepr f.1.2) ++
      "\x7d"
decreasing_by
  · rcases x with ⟨x, hx⟩
    have := List.sizeOf_lt_of_mem hx
    simp only [Json.arr.sizeOf_spec]
    omega
  · rcases f with ⟨⟨a, b⟩, hf⟩
    have := List.sizeOf_lt_of_mem hf
    simp only [Json.obj.sizeOf_spec, Prod.mk.sizeOf_spec] at *
    omega

/-- Python `str` of a decoded JSON value, as used in
`str(data.get("query_type", ""))`. -/
def pyStr : Json → String
  | .str s => s
  | v => pyRepr v

/-- The allowed query types (source line 158). -/
def allowedQueryTypes : List String :=
  ["balance", "transfer", "loan", "investment", "other"]

/-- The failure-default record (source lines 121 to 128 and 148 to
155): all fields empty, `query_type` is `other`, `other_details`
carries the original user message, `answered` is false. -/
def failureDefault (user_input : String) : PyDict :=
  [("name", .str ""), ("email", .str ""), ("account_number", .str ""),
   ("query_type", .str "other"), ("other_details", .str user_input),
   ("answered", .bool false)]

/-- Validation of a parsed dict (source lines 157 to 167): force
`query_type` into the allowed set after lowercasing its `str` form,
then fill each missing key with its default. Present values of the
other five keys pass through unchanged. -/
def validateRecord (data : PyDict) : PyDict :=
  let qt := pyLower (pyStr ((pyGet data "query_type").getD (.str "")))
  let d₁ := pyAssign data "query_type"
    (.str (if allowedQueryTypes.contains qt then qt else "other"))
  let d₂ := pySetdefault d₁ "name" (.str "")
  let d₃ := pySetdefault d₂ "email" (.str "")
  let d₄ := pySetdefault d₃ "account_number" (.str "")
  let d₅ := pySetdefault d₄ "other_details" (.str "")
  pySetdefault d₅ "answered" (.bool false)

/-- The stderr line printed when the repaired blob does not parse. -/
def jsonFailMsg (blob : List Char) : String :=
  "Error: JSON parsing failed. Blob was:\n" ++ String.mk blob

/-- `extract_user_info` (source lines 89 to 169) given the raw text
the completion client returned for the extraction prompt. The first
component is the returned record, `none` standing for an uncaught
Python exception (an `AttributeError` from `data.get` when the
parsed value is not a dict); the second component is the list of
stderr lines the call prints. -/
def extract_user_info (user_input raw : String) : Option PyDict × List String :=
  if raw = "" then (some (failureDefault user_input), [])
  else
    let blob := repairBlob raw.data
    match jsonParse blob with
    | some (.obj data) => (some (validateRecord data), [])
    | some _ => (none, [])
    | none => (some (failureDefault user_input), [jsonFailMsg blob])

/-- Digits to a natural number, most significant first. -/
def decDigits (cs : List Char) : Nat :=
  cs.foldl (fun a c => a * 10 + (c.toNat - '0'.toNat)) 0

/-- Python `int()` of a JSON number, from its token text: exact
truncation toward zero of the denoted rational. Python goes through
a binary float for non-integer tokens, so results can differ at the
extremes of float precision or range; the loop only converts the
`answered` field, where this cannot matter. -/
def numRawToInt (s : String) : Option Int :=
  let p := match s.data with
    | '-' :: t => ((-1 : Int), t)
    | t => ((1 : Int), t)
  let sgn := p.1
  let cs₁ := p.2
  let ip := cs₁.takeWhile Char.isDigit
  let r₁ := cs₁.dropWhile Char.isDigit
  if ip = [] then none
  else
    let q := match r₁ with
      | '.' :: u => (u.takeWhile Char.isDigit, u.dropWhile Char.isDigit)
      | _ => (([] : List Char), r₁)
    let fp := q.1
    let e : Int := match q.2 with
      | c :: u =>
          if c = 'e' ∨ c = 'E' then
            match u with
            | '+' :: v => (decDigits (v.takeWhile Char.isDigit) : Int)
            | '-' :: v => -(decDigits (v.takeWhile Char.isDigit) : Int)
            | v => (decDigits (v.takeWhile Char.isDigit) : Int)
          else 0
      | [] => 0
    let mant : Int := sgn * (decDigits (ip ++ fp) : Int)
    let scale : Int := e - fp.length
    if 0 ≤ scale then some (mant * (10 : Int) ^ scale.toNat)
    else some (Int.div mant ((10 : Int) ^ (-scale).toNat))

/-- Python `int(str)`: optional surrounding whitespace, optional
sign, decimal digits (digit-group underscores are not modelled);
anything else raises `ValueError`, modelled as `none`. -/
def pyIntOfString (s : String) : Option Int :=
  let cs := pyStrip s.data
  let p := match cs with
    | '+' :: t => ((1 : Int), t)
    | '-' :: t => ((-1 : Int), t)
    | t => ((1 : Int), t)
  if p.2 ≠ [] ∧ p.2.all Char.isDigit then some (p.1 * decDigits p.2) else none

/-- Python `int(x)` on a decoded JSON value. `none` models a raised
`TypeError` or `ValueError`. -/
def pyInt : Json → Option Int
  | .bool true => some 1
  | .bool false => some 0
  | .num raw => numRawToInt raw
  | .str s => pyIntOfString s
  | .null => none
  | .arr _ => none
  | .obj _ => none

/-- Outcome of one `subprocess.run(["ollama", "run", model, prompt])`
invocation, as seen by `ollama_generate`: the process completed with
a return code and captured output, or the bounded wait expired, or
the invocation itself raised. -/
inductive OllamaOutcome where
  | completed (returncode : Int) (stdout : String) (stderr : String)
  | timeout
  | invocationError (msg : String)

/-- `ollama_generate` (source lines 59 to 87): the returned string
and the stderr diagnostics printed. Every failure path returns the
empty string after logging; the success path returns stripped
stdout. -/
def ollama_generate : OllamaOutcome → String × List String
  | .completed rc out err =>
      if rc ≠ 0 then
        ("", ["Error: Ollama CLI exited with code " ++ toString rc ++ ": "
                ++ pyStripStr err])
      else (pyStripStr out, [])
  | .timeout => ("", ["Error: Ollama CLI timed out."])
  | .invocationError m => ("", ["Error: Ollama CLI invocation failed: " ++ m])

/-- A failure of the model invocation: timeout, non-zero exit, or
any other raised invocation error. -/
def ollamaFailed : OllamaOutcome → Prop
  | .completed rc _ _ => rc ≠ 0
  | .timeout => True
  | .invocationError _ => True

/-- Outcome of the `INSERT` plus `commit` for one turn: success, or
a raised `mysql.connector.Error` carrying a message. -/
inductive StoreResult where
  | ok
  | err (msg : String)

/-- The external events one iteration of the `main` loop consumes:
the line typed by the user, the completion outcome for the chat
reply, the completion outcome for the extraction prompt, and the
storage outcome of the insert. -/
structure TurnEnv where
  inputLine : String
  replyOut : OllamaOutcome
  extractOut : OllamaOutcome
  insertOut : StoreResult

/-- The six column values of one inserted `user_info` row
(source lines 193 to 208), with `answered` already converted by
`int(...)`. -/
structure InsertedRow where
  name : Json
  email : Json
  account_number : Json
  query_type : Json
  other_details : Json
  answered : Int

/-- Build the tuple passed to `cursor.execute`: the five field
lookups and `int(info["answered"])`. `none` models a raised
`KeyError`, `TypeError` or `ValueError`, none of which the except
clause around the insert catches. -/
def buildRow (info : PyDict) : Option InsertedRow := do
  let nm ← pyGet info "name"
  let em ← pyGet info "email"
  let ac ← pyGet info "account_number"
  let qt ← pyGet info "query_type"
  let od ← pyGet info "other_details"
  let an ← pyGet info "answered"
  let i ← pyInt an
  pure ⟨nm, em, ac, qt, od, i⟩

/-- Observable trace of a run of the `main` loop: the stderr lines in
order, the rows inserted in order, and whether the process died from
an uncaught exception. -/
structure RunTrace where
  errors : List String
  stored : List InsertedRow
  crashed : Bool

/-- The stderr line printed when the insert raises. -/
def insertFailMsg (m : String) : String :=
  "Error: Failed to insert user info: " ++ m

/-- The `while True` loop of `main` (source lines 179 to 212), run
against a finite schedule of per-turn external events; an exhausted
schedule ends the run. Each turn: strip the input line, stop on
`exit`/`quit` (case-insensitive), get the chat reply (displayed and
embedded in the extraction prompt), extract the record, insert it. A
raised `mysql.connector.Error` from the insert is caught and logged
and the loop continues; any other exception crashes the process. -/
def runLoop : List TurnEnv → RunTrace
  | [] => ⟨[], [], false⟩
  | env :: rest =>
      let u := pyStripStr env.inputLine
      if pyLower u = "exit" ∨ pyLower u = "quit" then ⟨[], [], false⟩
      else
        let e₁ := (ollama_generate env.replyOut).2
        let exRaw := (ollama_generate env.extractOut).1
        let e₂ := (ollama_generate env.extractOut).2
        let r := extract_user_info u exRaw
        match r.1 with
        | none => ⟨e₁ ++ e₂ ++ r.2, [], true⟩
        | some info =>
            match buildRow info with
            | none => ⟨e₁ ++ e₂ ++ r.2, [], true⟩
            | some row =>
                match env.insertOut with
                | .ok =>
                    let t := runLoop rest
                    ⟨e₁ ++ e₂ ++ r.2 ++ t.errors, row :: t.stored, t.crashed⟩
                | .err m =>
                    let t := runLoop rest
                    ⟨e₁ ++ e₂ ++ r.2 ++ insertFailMsg m :: t.errors,
                      t.stored, t.crashed⟩

/-! ### Dictionary lemmas -/

theorem pyGet_pyAssign_self (d : PyDict) (k : String) (v : Json) :
    pyGet (pyAssign d k v) k = some v := by
  induction d with
  | nil => simp [pyAssign, pyGet]
  | cons p rest ih =>
      obtain ⟨k₂, w⟩ := p
      by_cases h : k₂ = k
      · simp [pyAssign, pyGet, h]
      · simp [pyAssign, pyGet, h, ih]

theorem pyGet_pyAssign_ne (d : PyDict) (k k₂ : String) (v : Json)
    (h : k₂ ≠ k) : pyGet (pyAssign d k v) k₂ = pyGet d k₂ := by
  have h' : ¬(k = k₂) := fun hh => h hh.symm
  induction d with
  | nil => simp [pyAssign, pyGet, h']
  | cons p rest ih =>
      obtain ⟨k₃, w⟩ := p
      by_cases h₃ : k₃ = k
      · subst h₃
        simp [pyAssign, pyGet, h']
      · simp [pyAssign, pyGet, h₃, ih]

theorem pyGet_append_single (d : PyDict) (k k₂ : String) (v : Json) :
    pyGet (d ++ [(k, v)]) k₂ =
      match pyGet d k₂ with
      | some w => some w
      | none => if k = k₂ then some v else none := by
  induction d with
  | nil => simp [pyGet]
  | cons p rest ih =>
      obtain ⟨k₃, w⟩ := p
      by_cases h : k₃ = k₂ <;> simp [pyGet, h, ih]

theorem pyGet_pySetdefault_self (d : PyDict) (k : String) (v : Json) :
    pyGet (pySetdefault d k v) k = some ((pyGet d k).getD v) := by
  unfold pySetdefault
  match h : pyGet d k with
  | some w => simp [h]
  | none => simp [pyGet_append_single, h]

theorem pyGet_pySetdefault_ne (d : PyDict) (k k₂ : String) (v : Json)
    (h : k₂ ≠ k) : pyGet (pySetdefault d k v) k₂ = pyGet d k₂ := by
  have h' : ¬(k = k₂) := fun hh => h hh.symm
  unfold pySetdefault
  match hg : pyGet d k with
  | some w => rfl
  | none =>
      rw [pyGet_append_single]
      match hg₂ : pyGet d k₂ with
      | some w => rfl
      | none => simp [h']

/-! ### The validated record -/

/-- The string stored under `query_type` by the validation step. -/
def normalizedQt (data : PyDict) : String :=
  if allowedQueryTypes.contains
      (pyLower (pyStr ((pyGet data "query_type").getD (.str "")))) then
    pyLower (pyStr ((pyGet data "query_type").getD (.str "")))
  else "other"

theorem validateRecord_get_queryType (data : PyDict) :
    pyGet (validateRecord data) "query_type" = some (.str (normalizedQt data)) := by
  simp only [validateRecord]
  rw [pyGet_pySetdefault_ne _ _ _ _ (by decide),
    pyGet_pySetdefault_ne _ _ _ _ (by decide),
    pyGet_pySetdefault_ne _ _ _ _ (by decide),
    pyGet_pySetdefault_ne _ _ _ _ (by decide),
    pyGet_pySetdefault_ne _ _ _ _ (by decide),
    pyGet_pyAssign_self]
  rfl

theorem normalizedQt_mem (data : PyDict) :
    normalizedQt data ∈ allowedQueryTypes := by
  unfold normalizedQt
  by_cases h : allowedQueryTypes.contains
      (pyLower (pyStr ((pyGet data "query_type").getD (.str ""))))
  · simp only [h, if_true]
    exact List.elem_iff.mp h
  · simp only [h, Bool.false_eq_true, if_false]
    decide

theorem validateRecord_queryType (data : PyDict) :
    ∃ q, pyGet (validateRecord data) "query_type" = some (.str q) ∧
      q ∈ allowedQueryTypes :=
  ⟨normalizedQt data, validateRecord_get_queryType data, normalizedQt_mem data⟩

theorem validateRecord_hasKey (data : PyDict) (k : String)
    (hk : k ∈ ["name", "email", "account_number", "query_type",
               "other_details", "answered"]) :
    ∃ v, pyGet (validateRecord data) k = some v := by
  unfold validateRecord
  fin_cases hk
  · rw [pyGet_pySetdefault_ne _ _ _ _ (by decide),
      pyGet_pySetdefault_ne _ _ _ _ (by decide),
      pyGet_pySetdefault_ne _ _ _ _ (by decide),
      pyGet_pySetdefault_ne _ _ _ _ (by decide),
      pyGet_pySetdefault_self]
    exact ⟨_, rfl⟩
  · rw [pyGet_pySetdefault_ne _ _ _ _ (by decide),
      pyGet_pySetdefault_ne _ _ _ _ (by decide),
      pyGet_pySetdefault_ne _ _ _ _ (by decide),
      pyGet_pySetdefault_self]
    exact ⟨_, rfl⟩
  · rw [pyGet_pySetdefault_ne _ _ _ _ (by decide),
      pyGet_pySetdefault_ne _ _ _ _ (by decide),
      pyGet_pySetdefault_self]
    exact ⟨_, rfl⟩
  · rw [pyGet_pySetdefault_ne _ _ _ _ (by decide),
      pyGet_pySetdefault_ne _ _ _ _ (by decide),
      pyGet_pySetdefault_ne _ _ _ _ (by decide),
      pyGet_pySetdefault_ne _ _ _ _ (by decide),
      pyGet_pySetdefault_ne _ _ _ _ (by decide),
      pyGet_pyAssign_self]
    exact ⟨_, rfl⟩
  · rw [pyGet_pySetdefault_ne _ _ _ _ (by decide),
      pyGet_pySetdefault_self]
    exact ⟨_, rfl⟩
  · rw [pyGet_pySetdefault_self]
    exact ⟨_, rfl⟩

/-! ### Branch behaviour of the extractor -/

theorem extract_parsed_obj (u raw : String) (data : PyDict)
    (hraw : raw ≠ "")
    (hp : jsonParse (repairBlob raw.data) = some (.obj data)) :
    extract_user_info u raw = (some (validateRecord data), []) := by
  simp only [extract_user_info, hraw, if_false, hp]

theorem extract_parse_failed (u raw : String)
    (hraw : raw ≠ "")
    (hp : jsonParse (repairBlob raw.data) = none) :
    extract_user_info u raw =
      (some (failureDefault u), [jsonFailMsg (repairBlob raw.data)]) := by
  simp only [extract_user_info, hraw, if_false, hp]

theorem extract_parsed_nonobj (u raw : String) (v : Json)
    (hraw : raw ≠ "") (hp : jsonParse (repairBlob raw.data) = some v)
    (hv : ∀ data, v ≠ .obj data) :
    extract_user_info u raw = (none, []) := by
  cases v with
  | null => simp only [extract_user_info, hraw, if_false, hp]
  | bool b => simp only [extract_user_info, hraw, if_false, hp]
  | num r => simp only [extract_user_info, hraw, if_false, hp]
  | str s => simp only [extract_user_info, hraw, if_false, hp]
  | arr xs => simp only [extract_user_info, hraw, if_false, hp]
  | obj fs => exact absurd rfl (hv fs)

theorem pyGet_failureDefault_queryType (u : String) :
    pyGet (failureDefault u) "query_type" = some (.str "other") := rfl

/-! ### Claim theorems: C1, C2, C3, C7 -/

/-- C1: for every user message and every raw model response, whenever
`extract_user_info` returns a record, its `query_type` is a string
drawn from the fixed five-value set {balance, transfer, loan,
investment, other}; it is never raw model output. -/
theorem c1_query_type_always_allowed (u raw : String) (d : PyDict)
    (h : (extract_user_info u raw).1 = some d) :
    ∃ q, pyGet d "query_type" = some (Json.str q) ∧ q ∈ allowedQueryTypes := by
  by_cases hraw : raw = ""
  · subst hraw
    have he : extract_user_info u "" = (some (failureDefault u), []) := rfl
    rw [he] at h
    simp only [Option.some.injEq] at h
    subst h
    exact ⟨"other", pyGet_failureDefault_queryType u, by decide⟩
  · cases hp : jsonParse (repairBlob raw.data) with
    | none =>
        rw [extract_parse_failed u raw hraw hp] at h
        simp only [Option.some.injEq] at h
        subst h
        exact ⟨"other", pyGet_failureDefault_queryType u, by decide⟩
    | some v =>
        cases v with
        | obj data =>
            rw [extract_parsed_obj u raw data hraw hp] at h
            simp only [Option.some.injEq] at h
            subst h
            exact validateRecord_queryType data
        | null =>
            rw [extract_parsed_nonobj u raw _ hraw hp (by intro d₂ hc; cases hc)] at h
            cases h
        | bool b =>
            rw [extract_parsed_nonobj u raw _ hraw hp (by intro d₂ hc; cases hc)] at h
            cases h
        | num r =>
            rw [extract_parsed_nonobj u raw _ hraw hp (by intro d₂ hc; cases hc)] at h
            cases h
        | str s =>
            rw [extract_parsed_nonobj u raw _ hraw hp (by intro d₂ hc; cases hc)] at h
            cases h
        | arr xs =>
            rw [extract_parsed_nonobj u raw _ hraw hp (by intro d₂ hc; cases hc)] at h
            cases h

/-- Witness for C1 at a concrete input: model output
`{"query_type": "LOAN"}` yields a record whose query type is the
allowed value `loan`. -/
theorem c1_query_type_always_allowed_witness :
    ∃ q, pyGet [("query_type", Json.str "loan"), ("name", Json.str ""),
                ("email", Json.str ""), ("account_number", Json.str ""),
                ("other_details", Json.str ""), ("answered", Json.bool false)]
        "query_type" = some (Json.str q) ∧ q ∈ allowedQueryTypes :=
  c1_query_type_always_allowed "hi" "\x7b\"query_type\": \"LOAN\"\x7d" _ (by rfl)

/-- C2 evidence (code bug): when the model returns `[1]`, the repaired
text parses to a JSON list, `data.get("query_type", "")` raises
`AttributeError`, and `extract_user_info` raises instead of returning
a record (modelled by `none`), crashing the process. -/
theorem c2_nondict_response_crashes :
    extract_user_info "Hello" "[1]" = (none, []) := rfl

/-- C3: when the completion client returns the empty string,
`extract_user_info` returns exactly the failure-default record:
empty name, email and account number, query type `other`, the
original user message as `other_details`, and `answered = false`. -/
theorem c3_empty_response_failure_default (u : String) :
    extract_user_info u "" =
      (some [("name", Json.str ""), ("email", Json.str ""),
             ("account_number", Json.str ""), ("query_type", Json.str "other"),
             ("other_details", Json.str u), ("answered", Json.bool false)], []) := rfl

/-- C7: on the input with one unclosed brace, the repair pipeline
appends exactly the missing closing brace and the result parses as
the expected JSON object. -/
theorem c7_brace_repair :
    repairBlob ("\x7b\"name\": \"Al\", \"email\": \"a@b.com\"".data) =
      ("\x7b\"name\": \"Al\", \"email\": \"a@b.com\"\x7d".data) ∧
    jsonParse (repairBlob ("\x7b\"name\": \"Al\", \"email\": \"a@b.com\"".data)) =
      some (Json.obj [("name", Json.str "Al"), ("email", Json.str "a@b.com")]) :=
  ⟨rfl, rfl⟩

/-! ### Claim C5: the answered field -/

/-- C5 counterexample: on model output with a present but non-boolean
`answered`, the extractor passes the value through unchanged, so the
returned `answered` is neither a boolean nor defaulted to false. -/
theorem c5_answered_counterexample :
    (extract_user_info "hi" "\x7b\"answered\": \"maybe\"\x7d").1 =
      some [("answered", Json.str "maybe"), ("query_type", Json.str "other"),
            ("name", Json.str ""), ("email", Json.str ""),
            ("account_number", Json.str ""), ("other_details", Json.str "")] ∧
    pyGet [("answered", Json.str "maybe"), ("query_type", Json.str "other"),
           ("name", Json.str ""), ("email", Json.str ""),
           ("account_number", Json.str ""), ("other_details", Json.str "")]
      "answered" = some (Json.str "maybe") ∧
    (∀ b : Bool, Json.str "maybe" ≠ Json.bool b) :=
  ⟨rfl, rfl, fun _ h => Json.noConfusion h⟩

/-- C5 amended: the `answered` field is set to `false` exactly when
the key is absent from the parsed object; a present value is passed
through unchanged (not validated or coerced to a boolean). -/
theorem c5_answered_absent_defaults_false (u raw : String) (data : PyDict)
    (hraw : raw ≠ "")
    (hp : jsonParse (repairBlob raw.data) = some (.obj data)) :
    (extract_user_info u raw).1 = some (validateRecord data) ∧
    pyGet (validateRecord data) "answered" =
      some ((pyGet data "answered").getD (.bool false)) := by
  refine ⟨by rw [extract_parsed_obj u raw data hraw hp], ?_⟩
  simp only [validateRecord]
  rw [pyGet_pySetdefault_self,
    pyGet_pySetdefault_ne _ _ _ _ (by decide),
    pyGet_pySetdefault_ne _ _ _ _ (by decide),
    pyGet_pySetdefault_ne _ _ _ _ (by decide),
    pyGet_pySetdefault_ne _ _ _ _ (by decide),
    pyGet_pyAssign_ne _ _ _ _ (by decide)]

/-- Witness for the amended C5: model output `{"name": "Jo"}` has no
`answered` key, and the returned record carries `answered = false`. -/
theorem c5_answered_absent_defaults_false_witness :
    (extract_user_info "hi" "\x7b\"name\": \"Jo\"\x7d").1 =
      some (validateRecord [("name", Json.str "Jo")]) ∧
    pyGet (validateRecord [("name", Json.str "Jo")]) "answered" =
      some ((pyGet [("name", Json.str "Jo")] "answered").getD (Json.bool false)) :=
  c5_answered_absent_defaults_false "hi" "\x7b\"name\": \"Jo\"\x7d"
    [("name", Json.str "Jo")] (by decide) (by rfl)

/-! ### Claim C10: unknown keys pass through -/

/-- C10: when the repaired text parses to an object with keys beyond
the six expected fields, the returned record keeps those extra keys
with their values unchanged: validation adds defaults and rewrites
`query_type`, but never removes unknown keys. -/
theorem c10_extra_keys_preserved (u raw k : String) (data : PyDict)
    (hraw : raw ≠ "")
    (hp : jsonParse (repairBlob raw.data) = some (.obj data))
    (hk : k ∉ ["name", "email", "account_number", "query_type",
               "other_details", "answered"]) :
    (extract_user_info u raw).1 = some (validateRecord data) ∧
    pyGet (validateRecord data) k = pyGet data k := by
  simp only [List.mem_cons, List.not_mem_nil, or_false, not_or] at hk
  obtain ⟨h₁, h₂, h₃, h₄, h₅, h₆⟩ := hk
  refine ⟨by rw [extract_parsed_obj u raw data hraw hp], ?_⟩
  simp only [validateRecord]
  rw [pyGet_pySetdefault_ne _ _ _ _ h₆,
    pyGet_pySetdefault_ne _ _ _ _ h₅,
    pyGet_pySetdefault_ne _ _ _ _ h₃,
    pyGet_pySetdefault_ne _ _ _ _ h₂,
    pyGet_pySetdefault_ne _ _ _ _ h₁,
    pyGet_pyAssign_ne _ _ _ _ h₄]

/-- Witness for C10: the unknown key `foo` survives extraction with
its value unchanged. -/
theorem c10_extra_keys_preserved_witness :
    (extract_user_info "hi" "\x7b\"foo\": 7\x7d").1 =
      some (validateRecord [("foo", Json.num "7")]) ∧
    pyGet (validateRecord [("foo", Json.num "7")]) "foo" =
      pyGet [("foo", Json.num "7")] "foo" :=
  c10_extra_keys_preserved "hi" "\x7b\"foo\": 7\x7d" "foo"
    [("foo", Json.num "7")] (by decide) (by rfl) (by decide)

/-! ### Claim C8: the completion client fails soft -/

/-- C8: for every invocation outcome, `ollama_generate` returns a
string rather than raising; on timeout, non-zero exit, or any other
invocation failure it returns the empty string and logs a diagnostic
to the error channel. -/
theorem c8_ollama_fails_soft (o : OllamaOutcome) (h : ollamaFailed o) :
    (ollama_generate o).1 = "" ∧ (ollama_generate o).2 ≠ [] := by
  cases o with
  | completed rc out err =>
      have hrc : rc ≠ 0 := h
      simp [ollama_generate, hrc]
  | timeout => simp [ollama_generate]
  | invocationError m => simp [ollama_generate]

/-- Witness for C8 at the timeout outcome. -/
theorem c8_ollama_fails_soft_witness :
    (ollama_generate OllamaOutcome.timeout).1 = "" ∧
    (ollama_generate OllamaOutcome.timeout).2 ≠ [] :=
  c8_ollama_fails_soft OllamaOutcome.timeout trivial

/-! ### Claim C6: a fenced response loses its content -/

theorem startsFence_cons_ne (c : Char) (hc : c ≠ '`') (xs : List Char) :
    startsFence (c :: xs) = false := by
  match xs with
  | [] => rfl
  | [b] => rfl
  | b :: d :: t => simp [startsFence, hc]

theorem findFence_of_clean (p : List Char) (hp : ∀ c ∈ p, c ≠ '`')
    (r : List Char) :
    findFence (p ++ '`' :: '`' :: '`' :: r) = some r := by
  induction p with
  | nil => simp [findFence, startsFence]
  | cons c p ih =>
      have hc : c ≠ '`' := hp c (by simp)
      rw [List.cons_append, findFence,
        startsFence_cons_ne c hc (p ++ '`' :: '`' :: '`' :: r)]
      simp only [Bool.false_eq_true, if_false]
      exact ih (fun x hx => hp x (by simp [hx]))

theorem fenceStrip_pure_fence (mid : List Char)
    (hmid : ∀ c ∈ mid, c ≠ '`') :
    fenceStrip ('`' :: '`' :: '`' :: (mid ++ ['`', '`', '`'])) = [] := by
  have hlen : ('`' :: '`' :: '`' :: (mid ++ ['`', '`', '`'])).length =
      mid.length + 6 := by simp
  rw [fenceStrip, hlen]
  show fenceStripGo (mid.length + 5 + 1) _ = []
  rw [fenceStripGo]
  have hs : startsFence ('`' :: '`' :: '`' :: (mid ++ ['`', '`', '`'])) = true := rfl
  rw [hs]
  simp only [if_true, List.drop_succ_cons, List.drop_zero]
  have hf : findFence (mid ++ ['`', '`', '`']) = some [] :=
    findFence_of_clean mid hmid []
  rw [hf]
  match h : mid.length + 5 with
  | 0 => rfl
  | k + 1 => rfl

/-- C6: when the raw model response is exactly one fenced code block
(triple backticks, optionally tagged `json`) containing valid JSON
and nothing else, the fence-stripping step removes the entire fenced
region including its JSON content, and `extract_user_info` returns
the failure-default record (with the parse-failure diagnostic on the
error channel) instead of the parsed object. -/
theorem c6_fenced_json_discarded (u tag body raw : String)
    (htag : tag = "" ∨ tag = "json")
    (hbt : ∀ c ∈ body.data, c ≠ '`')
    (hjson : ∃ o, jsonParse body.data = some (Json.obj o))
    (hraw : raw = "```" ++ tag ++ "\n" ++ body ++ "\n```") :
    fenceStrip raw.data = [] ∧
    extract_user_info u raw = (some (failureDefault u), [jsonFailMsg []]) := by
  have hdata : raw.data =
      '`' :: '`' :: '`' :: ((tag.data ++ '\n' :: body.data ++ ['\n']) ++ ['`', '`', '`']) := by
    subst hraw
    simp [String.data_append]
  have hmid : ∀ c ∈ tag.data ++ '\n' :: body.data ++ ['\n'], c ≠ '`' := by
    intro c hc
    rcases List.mem_append.mp hc with h₁ | h₂
    · rcases List.mem_append.mp h₁ with h₃ | h₄
      · rcases htag with ht | ht <;> subst ht
        · simp at h₃
        · have h₃' : c ∈ ['j', 's', 'o', 'n'] := h₃
          fin_cases h₃' <;> decide
      · rcases List.mem_cons.mp h₄ with h₅ | h₆
        · subst h₅; decide
        · exact hbt c h₆
    · simp only [List.mem_singleton] at h₂
      subst h₂; decide
  have hfs : fenceStrip raw.data = [] := by
    rw [hdata]
    exact fenceStrip_pure_fence _ hmid
  have hne : raw ≠ "" := by
    intro h
    rw [h] at hdata
    cases hdata
  have hblob : repairBlob raw.data = [] := by
    unfold repairBlob
    rw [hfs]
    rfl
  have hp : jsonParse (repairBlob raw.data) = none := by rw [hblob]; rfl
  refine ⟨hfs, ?_⟩
  rw [extract_parse_failed u raw hne hp, hblob]

/-- Witness for C6 at a concrete fenced response. -/
theorem c6_fenced_json_discarded_witness :
    fenceStrip ("```json\n\x7b\"name\": \"Al\"\x7d\n```" : String).data = [] ∧
    extract_user_info "hi" "```json\n\x7b\"name\": \"Al\"\x7d\n```" =
      (some (failureDefault "hi"), [jsonFailMsg []]) :=
  c6_fenced_json_discarded "hi" "json" "\x7b\"name\": \"Al\"\x7d"
    "```json\n\x7b\"name\": \"Al\"\x7d\n```"
    (Or.inr rfl) (by decide) ⟨[("name", Json.str "Al")], by rfl⟩ (by rfl)

/-! ### Claim C9: a storage failure is reported and the loop continues -/

/-- C9: when the insert for a turn raises a storage error, the error
is reported on the error channel, the record of that turn is dropped
(nothing is stored, no retry), and the loop goes on to process the
remaining turns exactly as it would have. -/
theorem c9_insert_failure_drops_turn (env : TurnEnv) (rest : List TurnEnv)
    (info : PyDict) (row : InsertedRow) (m : String)
    (hexit : ¬(pyLower (pyStripStr env.inputLine) = "exit" ∨
               pyLower (pyStripStr env.inputLine) = "quit"))
    (hinfo : (extract_user_info (pyStripStr env.inputLine)
                (ollama_generate env.extractOut).1).1 = some info)
    (hrow : buildRow info = some row)
    (hins : env.insertOut = .err m) :
    runLoop (env :: rest) =
      ⟨(ollama_generate env.replyOut).2 ++ (ollama_generate env.extractOut).2 ++
         (extract_user_info (pyStripStr env.inputLine)
            (ollama_generate env.extractOut).1).2 ++
         insertFailMsg m :: (runLoop rest).errors,
       (runLoop rest).stored, (runLoop rest).crashed⟩ := by
  rw [runLoop]
  simp only [hexit, if_false, hinfo, hrow, hins]

/-- Witness for C9: a concrete turn whose insert fails logs the
message, stores nothing, and the (empty) remaining schedule runs. -/
theorem c9_insert_failure_drops_turn_witness :
    runLoop [⟨"hi", OllamaOutcome.completed 0 "ok" "",
              OllamaOutcome.completed 0 "\x7b\x7d" "", StoreResult.err "boom"⟩] =
      ⟨[insertFailMsg "boom"], [], false⟩ :=
  c9_insert_failure_drops_turn
    ⟨"hi", OllamaOutcome.completed 0 "ok" "",
     OllamaOutcome.completed 0 "\x7b\x7d" "", StoreResult.err "boom"⟩
    [] (validateRecord [])
    ⟨Json.str "", Json.str "", Json.str "", Json.str "other", Json.str "", 0⟩
    "boom" (by decide) (by rfl) (by rfl) rfl

/-! ### Claim C4: repair idempotence -/

/-- C4 counterexample: the string `{"a": ",}"}` is well-formed JSON of
an object, but the trailing-comma regex deletes the comma inside the
string literal, so parsing after repair yields a different object
than parsing directly. -/
theorem c4_repair_not_idempotent :
    jsonParse ("\x7b\"a\": \",\x7d\"\x7d" : String).data =
      some (Json.obj [("a", Json.str ",\x7d")]) ∧
    jsonParse (repairBlob ("\x7b\"a\": \",\x7d\"\x7d" : String).data) =
      some (Json.obj [("a", Json.str "\x7d")]) ∧
    Json.obj [("a", Json.str ",\x7d")] ≠ Json.obj [("a", Json.str "\x7d")] := by
  refine ⟨rfl, rfl, ?_⟩
  intro h
  have : (",\x7d" : String) = "\x7d" := by
    injection h with h₁
    injection h₁ with h₂
    injection h₂ with h₃ h₄
    injection h₄
  exact absurd this (by decide)

/-- A tail whose first character cannot extend a preceding number
token under the Python number regex (so anything except a digit, a
decimal point, or an exponent marker). -/
def safeTail (l : List Char) : Prop :=
  ∀ c, l.head? = some c → ¬(c.isDigit ∨ c = '.' ∨ c = 'e' ∨ c = 'E')

theorem safeTail_nil : safeTail [] := by
  intro c hc
  simp at hc

theorem safeTail_cons (c : Char) (t : List Char)
    (hc : ¬(c.isDigit ∨ c = '.' ∨ c = 'e' ∨ c = 'E')) :
    safeTail (c :: t) := by
  intro d hd
  simp only [List.head?_cons, Option.some.injEq] at hd
  subst hd
  exact hc

theorem dropWhile_all_append (p : Char → Bool) (w x : List Char)
    (hw : ∀ c ∈ w, p c = true) :
    (w ++ x).dropWhile p = x.dropWhile p := by
  induction w with
  | nil => rfl
  | cons c w ih =>
      rw [List.cons_append, List.dropWhile_cons, if_pos (hw c (by simp))]
      exact ih (fun d hd => hw d (by simp [hd]))

theorem takeWhile_split (p : Char → Bool) (a x : List Char)
    (ha : ∀ c ∈ a, p c = true)
    (hx : ∀ c, x.head? = some c → p c = false) :
    (a ++ x).takeWhile p = a ∧ (a ++ x).dropWhile p = x := by
  induction a with
  | nil =>
      simp only [List.nil_append]
      cases x with
      | nil => simp
      | cons c t =>
          rw [List.takeWhile_cons, List.dropWhile_cons, hx c rfl]
          simp
  | cons c a ih =>
      have hc := ha c (by simp)
      rw [List.cons_append, List.takeWhile_cons, List.dropWhile_cons, hc]
      have ih' := ih (fun d hd => ha d (by simp [hd]))
      simp only [if_true]
      exact ⟨by rw [ih'.1], ih'.2⟩
theorem parseUEsc_replay (r : List Char) (ch : Char) (rr : List Char)
    (h : parseUEsc r = some (ch, rr)) :
    ∃ p, r = p ++ rr ∧ ∀ rr₂, parseUEsc (p ++ rr₂) = some (ch, rr₂) := by
  unfold parseUEsc at h
  split at h
  next h₁ h₂ h₃ h₄ r₂ =>
    split at h
    · exact Option.noConfusion h
    next code hx =>
      split at h
      next hs =>
        split at h
        next b₁ b₂ g₁ g₂ g₃ g₄ r₃ =>
          split at h
          next hbu =>
            split at h
            · exact Option.noConfusion h
            next lo hg =>
              split at h
              next hlo =>
                split at h
                next ch₂ hcc =>
                  injection h with h'
                  injection h' with hc hr
                  subst hc; subst hr
                  refine ⟨[h₁, h₂, h₃, h₄, b₁, b₂, g₁, g₂, g₃, g₄], rfl, ?_⟩
                  intro rr₂
                  simp only [parseUEsc, List.cons_append, List.nil_append, hx,
                    if_pos hs, if_pos hbu, hg, if_pos hlo, hcc]
                next hcc => exact Option.noConfusion h
              next hlo => exact Option.noConfusion h
          next hbu => exact Option.noConfusion h
        next hcat => exact Option.noConfusion h
      next hs =>
        split at h
        next ch₂ hcc =>
          injection h with h'
          injection h' with hc hr
          subst hc; subst hr
          refine ⟨[h₁, h₂, h₃, h₄], rfl, ?_⟩
          intro rr₂
          simp only [parseUEsc, List.cons_append, List.nil_append, hx, if_neg hs, hcc]
        next hcc => exact Option.noConfusion h
  next hshape => exact Option.noConfusion h

theorem psb_quote (m : Nat) (acc r : List Char) :
    parseStringBody (m + 1) acc ('"' :: r) = some (String.mk acc.reverse, r) := rfl

theorem psb_esc (m : Nat) (acc : List Char) (e : Char) (r₁ : List Char) (ce : Char)
    (hesc : escChar e = some ce) :
    parseStringBody (m + 1) acc ('\\' :: e :: r₁) = parseStringBody m (ce :: acc) r₁ := by
  have hne : ¬('\\' = '"') := by decide
  simp only [parseStringBody, if_neg hne, eq_self_iff_true, if_true, hesc]

theorem psb_u_some (m : Nat) (acc r₁ : List Char) (ch : Char) (r₂ : List Char)
    (hpu : parseUEsc r₁ = some (ch, r₂)) :
    parseStringBody (m + 1) acc ('\\' :: 'u' :: r₁) = parseStringBody m (ch :: acc) r₂ := by
  have hne : ¬('\\' = '"') := by decide
  have hesc : escChar 'u' = none := rfl
  simp only [parseStringBody, if_neg hne, eq_self_iff_true, if_true, hesc, hpu]

theorem psb_u_none (m : Nat) (acc r₁ : List Char)
    (hpu : parseUEsc r₁ = none) :
    parseStringBody (m + 1) acc ('\\' :: 'u' :: r₁) = none := by
  have hne : ¬('\\' = '"') := by decide
  have hesc : escChar 'u' = none := rfl
  simp only [parseStringBody, if_neg hne, eq_self_iff_true, if_true, hesc, hpu]

theorem psb_badesc (m : Nat) (acc : List Char) (e : Char) (r₁ : List Char)
    (hesc : escChar e = none) (hu : ¬(e = 'u')) :
    parseStringBody (m + 1) acc ('\\' :: e :: r₁) = none := by
  have hne : ¬('\\' = '"') := by decide
  simp only [parseStringBody, if_neg hne, eq_self_iff_true, if_true, hesc, if_neg hu]

theorem psb_plain (m : Nat) (acc : List Char) (c : Char) (r : List Char)
    (h₁ : ¬(c = '"')) (h₂ : ¬(c = '\\')) (h₃ : ¬(c.toNat < 0x20)) :
    parseStringBody (m + 1) acc (c :: r) = parseStringBody m (c :: acc) r := by
  simp only [parseStringBody, if_neg h₁, if_neg h₂, if_neg h₃]

theorem psb_control (m : Nat) (acc : List Char) (c : Char) (r : List Char)
    (h₁ : ¬(c = '"')) (h₂ : ¬(c = '\\')) (h₃ : c.toNat < 0x20) :
    parseStringBody (m + 1) acc (c :: r) = none := by
  simp only [parseStringBody, if_neg h₁, if_neg h₂, if_pos h₃]

theorem psb_bslash_nil (m : Nat) (acc : List Char) :
    parseStringBody (m + 1) acc ['\\'] = none := rfl

theorem parseStringBody_replay :
    ∀ n acc cs s r, parseStringBody n acc cs = some (s, r) →
      ∃ b, cs = b ++ r ∧ ∀ m r₂, b.length + 1 ≤ m →
        parseStringBody m acc (b ++ r₂) = some (s, r₂) := by
  intro n
  induction n with
  | zero =>
      intro acc cs s r h
      exact Option.noConfusion h
  | succ n ih =>
      intro acc cs s r h
      cases cs with
      | nil => exact Option.noConfusion h
      | cons c r₀ =>
          by_cases h₁ : c = '"'
          · subst h₁
            rw [psb_quote] at h
            injection h with h'
            injection h' with hs hr
            subst hs; subst hr
            refine ⟨['"'], rfl, ?_⟩
            intro m r₂ hm
            obtain ⟨m', rfl⟩ : ∃ m', m = m' + 1 := ⟨m - 1, by omega⟩
            exact psb_quote m' acc r₂
          · by_cases h₂ : c = '\\'
            · subst h₂
              cases r₀ with
              | nil => rw [psb_bslash_nil] at h; exact Option.noConfusion h
              | cons e r₁ =>
                  cases hesc : escChar e with
                  | some ce =>
                      rw [psb_esc n acc e r₁ ce hesc] at h
                      obtain ⟨b, hb', hrep⟩ := ih _ _ _ _ h
                      subst hb'
                      refine ⟨'\\' :: e :: b, rfl, ?_⟩
                      intro m r₂ hm
                      obtain ⟨m', rfl⟩ : ∃ m', m = m' + 1 := ⟨m - 1, by omega⟩
                      rw [show ('\\' :: e :: b) ++ r₂ = '\\' :: e :: (b ++ r₂) from rfl,
                        psb_esc m' acc e (b ++ r₂) ce hesc]
                      exact hrep m' r₂ (by simp only [List.length_cons] at hm; omega)
                  | none =>
                      by_cases hu : e = 'u'
                      · subst hu
                        cases hpu : parseUEsc r₁ with
                        | none =>
                            rw [psb_u_none n acc r₁ hpu] at h
                            exact Option.noConfusion h
                        | some p =>
                            obtain ⟨ch, r₂'⟩ := p
                            rw [psb_u_some n acc r₁ ch r₂' hpu] at h
                            obtain ⟨pu, hpu_eq, hpu_rep⟩ := parseUEsc_replay r₁ ch r₂' hpu
                            obtain ⟨b, hb', hrep⟩ := ih _ _ _ _ h
                            subst hb'
                            subst hpu_eq
                            refine ⟨'\\' :: 'u' :: (pu ++ b), by simp, ?_⟩
                            intro m r₂ hm
                            obtain ⟨m', rfl⟩ : ∃ m', m = m' + 1 := ⟨m - 1, by omega⟩
                            have hsh : ('\\' :: 'u' :: (pu ++ b)) ++ r₂ =
                                '\\' :: 'u' :: (pu ++ (b ++ r₂)) := by simp
                            rw [hsh, psb_u_some m' acc (pu ++ (b ++ r₂)) ch (b ++ r₂)
                              (hpu_rep (b ++ r₂))]
                            refine hrep m' r₂ ?_
                            simp only [List.length_cons, List.length_append] at hm ⊢
                            omega
                      · rw [psb_badesc n acc e r₁ hesc hu] at h
                        exact Option.noConfusion h
            · by_cases h₃ : c.toNat < 0x20
              · rw [psb_control n acc c r₀ h₁ h₂ h₃] at h
                exact Option.noConfusion h
              · rw [psb_plain n acc c r₀ h₁ h₂ h₃] at h
                obtain ⟨b, hb', hrep⟩ := ih _ _ _ _ h
                subst hb'
                refine ⟨c :: b, rfl, ?_⟩
                intro m r₂ hm
                obtain ⟨m', rfl⟩ : ∃ m', m = m' + 1 := ⟨m - 1, by omega⟩
                rw [show (c :: b) ++ r₂ = c :: (b ++ r₂) from rfl,
                  psb_plain m' acc c (b ++ r₂) h₁ h₂ h₃]
                exact hrep m' r₂ (by simp only [List.length_cons] at hm; omega)
theorem dropWhile_head_false (p : Char → Bool) :
    ∀ (l : List Char) (c : Char) (t : List Char),
      l.dropWhile p = c :: t → p c = false := by
  intro l
  induction l with
  | nil => intro c t h; exact List.noConfusion h
  | cons a l ih =>
      intro c t h
      rw [List.dropWhile_cons] at h
      split at h
      · exact ih c t h
      · injection h with h₁ h₂
        subst h₁
        rename_i ha
        exact eq_false_of_ne_true ha

theorem takeWhile_cons_of_pos (p : Char → Bool) (c : Char) (t : List Char)
    (hc : p c = true) : (c :: t).takeWhile p = c :: t.takeWhile p := by
  simp [List.takeWhile_cons, hc]

theorem fracSplit_head_ne (l : List Char)
    (h : ∀ c, l.head? = some c → ¬(c = '.')) : fracSplit l = ([], l) := by
  cases l with
  | nil => rfl
  | cons c u =>
      have hc : ¬(c = '.') := h c rfl
      simp only [fracSplit, if_neg hc]

theorem expoSplit_head_ne (l : List Char)
    (h : ∀ c, l.head? = some c → ¬(c = 'e' ∨ c = 'E')) : expoSplit l = ([], l) := by
  cases l with
  | nil => rfl
  | cons c u =>
      have hc : ¬(c = 'e' ∨ c = 'E') := h c rfl
      simp only [expoSplit, if_neg hc]

theorem safeTail_not_digit (l : List Char) (h : safeTail l) :
    ∀ c, l.head? = some c → c.isDigit = false := by
  intro c hc
  have := h c hc
  simp only [not_or] at this
  exact eq_false_of_ne_true (by exact fun hb => this.1 hb)

theorem safeTail_not_dot (l : List Char) (h : safeTail l) :
    ∀ c, l.head? = some c → ¬(c = '.') := by
  intro c hc
  have := h c hc
  simp only [not_or] at this
  exact this.2.1

theorem safeTail_not_e (l : List Char) (h : safeTail l) :
    ∀ c, l.head? = some c → ¬(c = 'e' ∨ c = 'E') := by
  intro c hc
  have := h c hc
  simp only [not_or] at this
  exact fun hor => hor.elim this.2.2.1 this.2.2.2

theorem fracSplit_split (rest : List Char) :
    rest = (fracSplit rest).1 ++ (fracSplit rest).2 ∧
      ((fracSplit rest).1 = [] ∨
        ∃ ds, (fracSplit rest).1 = '.' :: ds ∧ ds ≠ [] ∧
          (∀ c ∈ ds, c.isDigit = true) ∧
          (∀ c, (fracSplit rest).2.head? = some c → c.isDigit = false)) := by
  cases rest with
  | nil => exact ⟨rfl, Or.inl rfl⟩
  | cons c u =>
      by_cases hc : c = '.'
      · subst hc
        cases u with
        | nil => exact ⟨rfl, Or.inl rfl⟩
        | cons d v =>
            by_cases hd : d.isDigit
            · have hred : fracSplit ('.' :: d :: v) =
                  ('.' :: (d :: v).takeWhile Char.isDigit,
                   (d :: v).dropWhile Char.isDigit) := by
                simp only [fracSplit, eq_self_iff_true, if_true, hd]
              rw [hred]
              constructor
              · simp only [List.cons_append]
                rw [List.takeWhile_append_dropWhile]
              · refine Or.inr ⟨(d :: v).takeWhile Char.isDigit, rfl, ?_, ?_, ?_⟩
                · rw [takeWhile_cons_of_pos _ _ _ hd]
                  exact List.cons_ne_nil _ _
                · intro x hx
                  exact List.mem_takeWhile_imp hx
                · intro x hx
                  cases hdw : (d :: v).dropWhile Char.isDigit with
                  | nil => rw [hdw] at hx; exact Option.noConfusion hx
                  | cons y t =>
                      rw [hdw] at hx
                      simp only [List.head?_cons, Option.some.injEq] at hx
                      subst hx
                      exact dropWhile_head_false _ _ _ _ hdw
            · have hred : fracSplit ('.' :: d :: v) = ([], '.' :: d :: v) := by
                simp only [fracSplit, eq_self_iff_true, if_true, if_neg hd]
              rw [hred]
              exact ⟨rfl, Or.inl rfl⟩
      · rw [fracSplit_head_ne _ (fun x hx => by
          injection hx with h₂; exact fun hdot => hc (h₂.trans hdot))]
        exact ⟨rfl, Or.inl rfl⟩

theorem fracSplit_build (ds u' : List Char)
    (hne : ds ≠ []) (hds : ∀ c ∈ ds, c.isDigit = true)
    (hu' : ∀ c, u'.head? = some c → c.isDigit = false) :
    fracSplit ('.' :: (ds ++ u')) = ('.' :: ds, u') := by
  obtain ⟨d, dt, rfl⟩ : ∃ d dt, ds = d :: dt := by
    cases ds with
    | nil => exact absurd rfl hne
    | cons d dt => exact ⟨d, dt, rfl⟩
  have hd : d.isDigit = true := hds d (by simp)
  have hsp := takeWhile_split Char.isDigit (d :: dt) u' hds
    (fun c hc => hu' c hc)
  simp only [fracSplit, eq_self_iff_true, if_true, List.cons_append]
  rw [if_pos hd, ← List.cons_append, hsp.1, hsp.2]

theorem expoSplit_split (r₁ : List Char) :
    r₁ = (expoSplit r₁).1 ++ (expoSplit r₁).2 ∧
      ((expoSplit r₁).1 = [] ∨
        ∃ e body, (expoSplit r₁).1 = e :: body ∧ (e = 'e' ∨ e = 'E') ∧
          (∀ c, (expoSplit r₁).2.head? = some c → c.isDigit = false) ∧
          ((body ≠ [] ∧ ∀ c ∈ body, c.isDigit = true) ∨
           (∃ s ds, body = s :: ds ∧ (s = '+' ∨ s = '-') ∧ ds ≠ [] ∧
             ∀ c ∈ ds, c.isDigit = true))) := by
  cases r₁ with
  | nil => exact ⟨rfl, Or.inl rfl⟩
  | cons e u =>
      by_cases he : e = 'e' ∨ e = 'E'
      · cases u with
        | nil =>
            have hred : expoSplit (e :: ([] : List Char)) = ([], [e]) := by
              simp only [expoSplit, if_pos he]
            rw [hred]
            exact ⟨rfl, Or.inl rfl⟩
        | cons s v =>
            by_cases hs : s = '+' ∨ s = '-'
            · cases v with
              | nil =>
                  have hred : expoSplit [e, s] = ([], [e, s]) := by
                    simp only [expoSplit, if_pos he, if_pos hs]
                  rw [hred]
                  exact ⟨rfl, Or.inl rfl⟩
              | cons d w =>
                  by_cases hd : d.isDigit
                  · have hred : expoSplit (e :: s :: d :: w) =
                        (e :: s :: (d :: w).takeWhile Char.isDigit,
                         (d :: w).dropWhile Char.isDigit) := by
                      simp only [expoSplit, if_pos he, if_pos hs, hd, if_true]
                    rw [hred]
                    refine ⟨?_, Or.inr ⟨e, s :: (d :: w).takeWhile Char.isDigit, rfl, he, ?_, ?_⟩⟩
                    · simp only [List.cons_append]
                      rw [List.takeWhile_append_dropWhile]
                    · intro x hx
                      cases hdw : (d :: w).dropWhile Char.isDigit with
                      | nil => rw [hdw] at hx; exact Option.noConfusion hx
                      | cons y t =>
                          rw [hdw] at hx
                          simp only [List.head?_cons, Option.some.injEq] at hx
                          subst hx
                          exact dropWhile_head_false _ _ _ _ hdw
                    · refine Or.inr ⟨s, (d :: w).takeWhile Char.isDigit, rfl, hs, ?_, ?_⟩
                      · rw [takeWhile_cons_of_pos _ _ _ hd]
                        exact List.cons_ne_nil _ _
                      · intro x hx
                        exact List.mem_takeWhile_imp hx
                  · have hred : expoSplit (e :: s :: d :: w) = ([], e :: s :: d :: w) := by
                      simp only [expoSplit, if_pos he, if_pos hs, if_neg hd]
                    rw [hred]
                    exact ⟨rfl, Or.inl rfl⟩
            · by_cases hsd : s.isDigit
              · have hred : expoSplit (e :: s :: v) =
                    (e :: (s :: v).takeWhile Char.isDigit,
                     (s :: v).dropWhile Char.isDigit) := by
                  simp only [expoSplit, if_pos he, if_neg hs, hsd, if_true]
                rw [hred]
                refine ⟨?_, Or.inr ⟨e, (s :: v).takeWhile Char.isDigit, rfl, he, ?_, ?_⟩⟩
                · simp only [List.cons_append]
                  rw [List.takeWhile_append_dropWhile]
                · intro x hx
                  cases hdw : (s :: v).dropWhile Char.isDigit with
                  | nil => rw [hdw] at hx; exact Option.noConfusion hx
                  | cons y t =>
                      rw [hdw] at hx
                      simp only [List.head?_cons, Option.some.injEq] at hx
                      subst hx
                      exact dropWhile_head_false _ _ _ _ hdw
                · refine Or.inl ⟨?_, ?_⟩
                  · rw [takeWhile_cons_of_pos _ _ _ hsd]
                    exact List.cons_ne_nil _ _
                  · intro x hx
                    exact List.mem_takeWhile_imp hx
              · have hred : expoSplit (e :: s :: v) = ([], e :: s :: v) := by
                  simp only [expoSplit, if_pos he, if_neg hs, if_neg hsd, if_false]
                rw [hred]
                exact ⟨rfl, Or.inl rfl⟩
      · rw [expoSplit_head_ne _ (fun x hx => by
          injection hx with h₂; exact fun hor => he (h₂ ▸ hor))]
        exact ⟨rfl, Or.inl rfl⟩

theorem expoSplit_build_digits (e : Char) (ds u' : List Char)
    (he : e = 'e' ∨ e = 'E') (hne : ds ≠ []) (hds : ∀ c ∈ ds, c.isDigit = true)
    (hu' : ∀ c, u'.head? = some c → c.isDigit = false) :
    expoSplit (e :: (ds ++ u')) = (e :: ds, u') := by
  obtain ⟨d, dt, rfl⟩ : ∃ d dt, ds = d :: dt := by
    cases ds with
    | nil => exact absurd rfl hne
    | cons d dt => exact ⟨d, dt, rfl⟩
  have hd : d.isDigit = true := hds d (by simp)
  have hdns : ¬(d = '+' ∨ d = '-') := by
    rintro (h | h) <;> subst h <;> simp [Char.isDigit] at hd
  have hsp := takeWhile_split Char.isDigit (d :: dt) u' hds hu'
  simp only [expoSplit, if_pos he, List.cons_append, if_neg hdns, hd, if_true]
  rw [← List.cons_append, hsp.1, hsp.2]

theorem expoSplit_build_sign (e s : Char) (ds u' : List Char)
    (he : e = 'e' ∨ e = 'E') (hs : s = '+' ∨ s = '-')
    (hne : ds ≠ []) (hds : ∀ c ∈ ds, c.isDigit = true)
    (hu' : ∀ c, u'.head? = some c → c.isDigit = false) :
    expoSplit (e :: s :: (ds ++ u')) = (e :: s :: ds, u') := by
  obtain ⟨d, dt, rfl⟩ : ∃ d dt, ds = d :: dt := by
    cases ds with
    | nil => exact absurd rfl hne
    | cons d dt => exact ⟨d, dt, rfl⟩
  have hd : d.isDigit = true := hds d (by simp)
  have hsp := takeWhile_split Char.isDigit (d :: dt) u' hds hu'
  simp only [expoSplit, if_pos he, if_pos hs, List.cons_append, hd, if_true]
  rw [← List.cons_append, hsp.1, hsp.2]

theorem fracExpo_replay (t r₂ : List Char) (hsafe : safeTail r₂) :
    fracSplit ((fracSplit t).1 ++ ((expoSplit (fracSplit t).2).1 ++ r₂))
      = ((fracSplit t).1, (expoSplit (fracSplit t).2).1 ++ r₂) ∧
    expoSplit ((expoSplit (fracSplit t).2).1 ++ r₂)
      = ((expoSplit (fracSplit t).2).1, r₂) ∧
    (∀ x, ((fracSplit t).1 ++ ((expoSplit (fracSplit t).2).1 ++ r₂)).head? = some x →
      x.isDigit = false) := by
  obtain ⟨hteq, hfshape⟩ := fracSplit_split t
  obtain ⟨hr1eq, hexshape⟩ := expoSplit_split (fracSplit t).2
  have hex2 : expoSplit ((expoSplit (fracSplit t).2).1 ++ r₂)
      = ((expoSplit (fracSplit t).2).1, r₂) ∧
      (∀ x, ((expoSplit (fracSplit t).2).1 ++ r₂).head? = some x →
        x.isDigit = false ∧ ¬(x = '.')) := by
    rcases hexshape with h0 | ⟨e, body, hex, he, _hbound, hforms⟩
    · rw [h0]
      simp only [List.nil_append]
      refine ⟨expoSplit_head_ne _ (safeTail_not_e _ hsafe), ?_⟩
      intro x hx
      exact ⟨safeTail_not_digit _ hsafe x hx, safeTail_not_dot _ hsafe x hx⟩
    · rw [hex]
      have hene : e.isDigit = false ∧ ¬(e = '.') := by
        rcases he with he | he <;> subst he <;> exact ⟨by decide, by decide⟩
      constructor
      · rcases hforms with ⟨hne, hds⟩ | ⟨s, ds, hbody, hs, hne, hds⟩
        · rw [List.cons_append]
          exact expoSplit_build_digits e body r₂ he hne hds
            (safeTail_not_digit _ hsafe)
        · subst hbody
          rw [List.cons_append, List.cons_append]
          exact expoSplit_build_sign e s ds r₂ he hs hne hds
            (safeTail_not_digit _ hsafe)
      · intro x hx
        simp only [List.cons_append, List.head?_cons, Option.some.injEq] at hx
        subst hx
        exact hene
  refine ⟨?_, hex2.1, ?_⟩
  · rcases hfshape with h0 | ⟨ds, hf1, hne, hds, _hbound⟩
    · rw [h0]
      simp only [List.nil_append]
      exact fracSplit_head_ne _ (fun x hx => (hex2.2 x hx).2)
    · rw [hf1]
      rw [List.cons_append]
      exact fracSplit_build ds _ hne hds (fun x hx => (hex2.2 x hx).1)
  · intro x hx
    rcases hfshape with h0 | ⟨ds, hf1, hne, hds, _hbound⟩
    · rw [h0] at hx
      simp only [List.nil_append] at hx
      exact (hex2.2 x hx).1
    · rw [hf1] at hx
      simp only [List.cons_append, List.head?_cons, Option.some.injEq] at hx
      subst hx
      decide

theorem numTokCore_replay (sgn cs₁ tok r : List Char)
    (h : numTokCore sgn cs₁ = some (tok, r)) :
    ∃ body, tok = sgn ++ body ∧ cs₁ = body ++ r ∧
      (∃ c bt, body = c :: bt ∧ c.isDigit = true) ∧
      ∀ r₂, safeTail r₂ → numTokCore sgn (body ++ r₂) = some (sgn ++ body, r₂) := by
  cases cs₁ with
  | nil => exact Option.noConfusion h
  | cons c t =>
      by_cases hc0 : c = '0'
      · subst hc0
        simp only [numTokCore, eq_self_iff_true, if_true] at h
        injection h with h'
        injection h' with htok hr
        obtain ⟨hteq, _⟩ := fracSplit_split t
        obtain ⟨hr1eq, _⟩ := expoSplit_split (fracSplit t).2
        refine ⟨'0' :: ((fracSplit t).1 ++ (expoSplit (fracSplit t).2).1),
          by rw [← htok], ?_, ⟨'0', _, rfl, by decide⟩, ?_⟩
        · rw [← hr]
          conv_lhs => rw [hteq, hr1eq]
          simp [List.append_assoc]
        · intro r₂ hsafe
          obtain ⟨hfs, hes, _⟩ := fracExpo_replay t r₂ hsafe
          simp only [numTokCore, eq_self_iff_true, if_true, List.cons_append,
            List.append_assoc]
          rw [hfs, hes]
      · by_cases hcd : c.isDigit
        · simp only [numTokCore, if_neg hc0, hcd, if_true] at h
          injection h with h'
          injection h' with htok hr
          set ds₀ := t.takeWhile Char.isDigit with hds₀
          set rest₀ := t.dropWhile Char.isDigit with hrest₀
          obtain ⟨hteq, _⟩ := fracSplit_split rest₀
          obtain ⟨hr1eq, _⟩ := expoSplit_split (fracSplit rest₀).2
          refine ⟨c :: (ds₀ ++ ((fracSplit rest₀).1 ++ (expoSplit (fracSplit rest₀).2).1)),
            ?_, ?_, ⟨c, _, rfl, hcd⟩, ?_⟩
          · rw [← htok]
          · rw [← hr]
            have ht : t = ds₀ ++ rest₀ := (List.takeWhile_append_dropWhile _ _).symm
            conv_lhs => rw [ht, hteq, hr1eq]
            simp [List.append_assoc]
          · intro r₂ hsafe
            obtain ⟨hfs, hes, hhead⟩ := fracExpo_replay rest₀ r₂ hsafe
            have hdsall : ∀ x ∈ ds₀, x.isDigit = true :=
              fun x hx => List.mem_takeWhile_imp hx
            have hsp := takeWhile_split Char.isDigit ds₀
              ((fracSplit rest₀).1 ++ ((expoSplit (fracSplit rest₀).2).1 ++ r₂))
              hdsall hhead
            simp only [numTokCore, if_neg hc0, hcd, if_true, List.cons_append,
              List.append_assoc]
            rw [hsp.1, hsp.2, hfs, hes]
        · simp only [numTokCore, if_neg hc0, hcd, if_false] at h
          exact Option.noConfusion h

theorem parseNumTok_replay (cs tok r : List Char)
    (h : parseNumTok cs = some (tok, r)) :
    cs = tok ++ r ∧ ∀ r₂, safeTail r₂ → parseNumTok (tok ++ r₂) = some (tok, r₂) := by
  cases cs with
  | nil => exact Option.noConfusion h
  | cons c t =>
      by_cases hcm : c = '-'
      · subst hcm
        simp only [parseNumTok, eq_self_iff_true, if_true] at h
        obtain ⟨body, htok, hteq, ⟨d, bt, hbody, hd⟩, hrep⟩ :=
          numTokCore_replay ['-'] t tok r h
        subst htok
        refine ⟨by rw [hteq]; rfl, ?_⟩
        intro r₂ hsafe
        have : (['-'] ++ body) ++ r₂ = '-' :: (body ++ r₂) := rfl
        rw [this]
        simp only [parseNumTok, eq_self_iff_true, if_true]
        exact hrep r₂ hsafe
      · simp only [parseNumTok, if_neg hcm] at h
        obtain ⟨body, htok, hteq, ⟨d, bt, hbody, hd⟩, hrep⟩ :=
          numTokCore_replay [] (c :: t) tok r h
        subst htok
        refine ⟨hteq, ?_⟩
        intro r₂ hsafe
        have hbm : ¬(d = '-') := by
          intro hdm
          subst hdm
          simp [Char.isDigit] at hd
        subst hbody
        simp only [List.cons_append, parseNumTok, if_neg hbm]
        exact hrep r₂ hsafe

/-- Replay property of a successful `parseValue`: the input splits
into leading whitespace, a consumed core, and the remainder, and the
core parses to the same value at any sufficient fuel and before any
number-inert tail. For objects the core is brace-delimited. -/
def ValueReplay (cs : List Char) (v : Json) (rest : List Char) : Prop :=
  ∃ w b, cs = w ++ (b ++ rest) ∧ (∀ c ∈ w, isJsonWs c = true) ∧ b ≠ [] ∧
    (∀ o, v = Json.obj o → ∃ mid, b = '{' :: (mid ++ ['}'])) ∧
    ∀ m r₂, safeTail r₂ → b.length + 1 ≤ m →
      parseValue m (b ++ r₂) = some (v, r₂)

/-- Replay property of a successful `parseMembers` run. -/
def MembersReplay (cs : List Char) (acc : PyDict) (v : Json) (rest : List Char) : Prop :=
  ∃ p, cs = p ++ '}' :: rest ∧
    ∀ m r₂, p.length + 2 ≤ m →
      parseMembers m (p ++ '}' :: r₂) acc = some (v, r₂)

/-- Replay property of a successful `parseElems` run. -/
def ElemsReplay (cs : List Char) (acc : List Json) (v : Json) (rest : List Char) : Prop :=
  ∃ p, cs = p ++ ']' :: rest ∧ (∀ o, v ≠ Json.obj o) ∧
    ∀ m r₂, p.length + 2 ≤ m →
      parseElems m (p ++ ']' :: r₂) acc = some (v, r₂)

theorem wsChar_not_numStart (a : Char) (ha : isJsonWs a = true) :
    ¬(a.isDigit ∨ a = '.' ∨ a = 'e' ∨ a = 'E') := by
  simp only [isJsonWs, Bool.or_eq_true, decide_eq_true_eq] at ha
  rcases ha with ((h | h) | h) | h <;> subst h <;> decide

theorem safeTail_ws_append (w : List Char) (hw : ∀ c ∈ w, isJsonWs c = true)
    (x : List Char) (hx : safeTail x) : safeTail (w ++ x) := by
  cases w with
  | nil => exact hx
  | cons a t =>
      intro c hc
      simp only [List.cons_append, List.head?_cons, Option.some.injEq] at hc
      rw [← hc]
      exact wsChar_not_numStart a (hw a (by simp))

theorem safeTail_cons_close (c : Char) (x : List Char)
    (hc : ¬(c.isDigit ∨ c = '.' ∨ c = 'e' ∨ c = 'E')) : safeTail (c :: x) := by
  intro d hd
  simp only [List.head?_cons, Option.some.injEq] at hd
  subst hd
  exact hc

theorem digit_not_ws (c : Char) (hc : c.isDigit = true) : isJsonWs c = false := by
  by_contra hws
  have hw : isJsonWs c = true := by
    cases h : isJsonWs c
    · exact absurd h hws
    · rfl
  simp only [isJsonWs, Bool.or_eq_true, decide_eq_true_eq] at hw
  rcases hw with ((h | h) | h) | h <;> subst h <;> simp [Char.isDigit] at hc

theorem dropWs_concat (w : List Char) (hw : ∀ c ∈ w, isJsonWs c = true)
    (c : Char) (hc : isJsonWs c = false) (x : List Char) :
    (w ++ c :: x).dropWhile isJsonWs = c :: x := by
  rw [dropWhile_all_append _ _ _ hw, List.dropWhile_cons, hc]
  simp

theorem cs_split_ws (cs : List Char) (c : Char) (r : List Char)
    (hdw : cs.dropWhile isJsonWs = c :: r) :
    cs = cs.takeWhile isJsonWs ++ (c :: r) := by
  conv_lhs => rw [← List.takeWhile_append_dropWhile isJsonWs cs]
  rw [hdw]

theorem parseValue_skip_ws (m : Nat) (w : List Char)
    (hw : ∀ c ∈ w, isJsonWs c = true) (x : List Char) :
    parseValue m (w ++ x) = parseValue m x := by
  cases m with
  | zero => rfl
  | succ m => simp only [parseValue, dropWhile_all_append isJsonWs w x hw]

theorem dropWhile_append_cons (p : Char → Bool) (l₁ : List Char) (d : Char)
    (ds l₂ : List Char) (h : l₁.dropWhile p = d :: ds) :
    (l₁ ++ l₂).dropWhile p = d :: (ds ++ l₂) := by
  induction l₁ with
  | nil =>
      simp only [List.dropWhile_nil] at h
      exact List.noConfusion h
  | cons a t ih =>
      rw [List.dropWhile_cons] at h
      rw [List.cons_append, List.dropWhile_cons]
      by_cases ha : p a = true
      · rw [if_pos ha] at h
        rw [if_pos ha]
        exact ih h
      · rw [if_neg ha] at h
        rw [if_neg ha]
        injection h with h₁ h₂
        subst h₁
        rw [h₂]

theorem dropWs_no_close (l : List Char) (rest : List Char) (c : Char)
    (hc : isJsonWs c = false)
    (h : (l ++ c :: rest).dropWhile isJsonWs = []) : False := by
  have := List.dropWhile_eq_nil_iff.mp h c (by simp)
  rw [hc] at this
  exact Bool.noConfusion this

theorem dropWs_cons (c : Char) (hc : isJsonWs c = false) (x : List Char) :
    (c :: x).dropWhile isJsonWs = c :: x := by
  rw [List.dropWhile_cons, hc]
  simp

theorem parseMembers_step (m : Nat) (tw bs tw₁ x : List Char) (acc : PyDict)
    (k : String)
    (htw : ∀ c ∈ tw, isJsonWs c = true)
    (hbs : ∀ m' r', bs.length + 1 ≤ m' →
      parseStringBody m' [] (bs ++ r') = some (k, r'))
    (htw₁ : ∀ c ∈ tw₁, isJsonWs c = true) :
    parseMembers (m + 1) (tw ++ '"' :: (bs ++ (tw₁ ++ ':' :: x))) acc =
      (match parseValue m x with
       | some (v₀, r₃) =>
           match r₃.dropWhile isJsonWs with
           | [] => none
           | c₃ :: r₄ =>
               if c₃ = ',' then parseMembers m r₄ (pyAssign acc k v₀)
               else if c₃ = '}' then some (Json.obj (pyAssign acc k v₀), r₄)
               else none
       | none => none) := by
  simp only [parseMembers, dropWs_concat tw htw '"' (by decide), if_true,
    eq_self_iff_true,
    hbs ((bs ++ (tw₁ ++ ':' :: x)).length + 1) (tw₁ ++ ':' :: x)
      (by simp only [List.length_append]; omega),
    dropWs_concat tw₁ htw₁ ':' (by decide)]
set_option maxHeartbeats 1000000 in
theorem parserReplay : ∀ n : Nat,
    (∀ cs v rest, parseValue n cs = some (v, rest) → ValueReplay cs v rest) ∧
    (∀ cs acc v rest, parseMembers n cs acc = some (v, rest) →
      MembersReplay cs acc v rest) ∧
    (∀ cs acc v rest, parseElems n cs acc = some (v, rest) →
      ElemsReplay cs acc v rest) := by
  intro n
  induction n with
  | zero =>
      exact ⟨fun _ _ _ h => Option.noConfusion h,
        fun _ _ _ _ h => Option.noConfusion h,
        fun _ _ _ _ h => Option.noConfusion h⟩
  | succ n ih =>
      obtain ⟨ihV, ihM, ihE⟩ := ih
      refine ⟨?_, ?_, ?_⟩
      · -- parseValue
        intro cs v rest h
        cases hdw : cs.dropWhile isJsonWs with
        | nil =>
            simp only [parseValue, hdw] at h
            exact Option.noConfusion h
        | cons c r =>
            simp only [parseValue, hdw] at h
            have hcs := cs_split_ws cs c r hdw
            have hw : ∀ x ∈ cs.takeWhile isJsonWs, isJsonWs x = true :=
              fun x hx => List.mem_takeWhile_imp hx
            by_cases h₁ : c = '"'
            · subst h₁
              rw [if_pos rfl] at h
              cases hsb : parseStringBody (r.length + 1) [] r with
              | none => rw [hsb] at h; exact Option.noConfusion h
              | some p =>
                  obtain ⟨s, r₂⟩ := p
                  rw [hsb] at h
                  injection h with h'
                  injection h' with hv hrest
                  subst hv; subst hrest
                  obtain ⟨bs, hbs, hrep⟩ :=
                    parseStringBody_replay (r.length + 1) [] r s r₂ hsb
                  refine ⟨cs.takeWhile isJsonWs, '"' :: bs, ?_, hw, by simp, ?_, ?_⟩
                  · conv_lhs => rw [hcs]
                    rw [hbs]
                    simp
                  · intro o ho; exact Json.noConfusion ho
                  · intro m r₃ hsafe hm
                    obtain ⟨m₀, rfl⟩ : ∃ m₀, m = m₀ + 1 := ⟨m - 1, by omega⟩
                    have hdw₂ : (('"' :: bs) ++ r₃).dropWhile isJsonWs =
                        '"' :: (bs ++ r₃) := by
                      rw [List.cons_append]
                      exact dropWs_concat [] (by intro c hc; cases hc) '"'
                        (by decide) (bs ++ r₃)
                    simp only [parseValue, hdw₂, eq_self_iff_true, if_true,
                      hrep ((bs ++ r₃).length + 1) r₃
                        (by simp only [List.length_append]; omega)]
            · rw [if_neg h₁] at h
              by_cases h₂ : c = '{'
              · subst h₂
                rw [if_pos rfl] at h
                cases hdw₂ : r.dropWhile isJsonWs with
                | nil =>
                    rw [hdw₂] at h
                    obtain ⟨p, hp, hrep⟩ := ihM r [] v rest h
                    rw [hp] at hdw₂
                    exact (dropWs_no_close p rest '}' (by decide) hdw₂).elim
                | cons c₂ r₂ =>
                    rw [hdw₂] at h
                    have h₅ : (if c₂ = '}' then some (Json.obj [], r₂)
                        else parseMembers n r []) = some (v, rest) := h
                    by_cases hc₂ : c₂ = '}'
                    · subst hc₂
                      rw [if_pos rfl] at h₅
                      injection h₅ with h'
                      injection h' with hv hrest
                      subst hv; subst hrest
                      have hr := cs_split_ws r '}' r₂ hdw₂
                      have hwr : ∀ x ∈ r.takeWhile isJsonWs, isJsonWs x = true :=
                        fun x hx => List.mem_takeWhile_imp hx
                      refine ⟨cs.takeWhile isJsonWs,
                        '{' :: (r.takeWhile isJsonWs ++ ['}']), ?_, hw, by simp,
                        ?_, ?_⟩
                      · conv_lhs => rw [hcs, hr]
                        simp
                      · intro o ho
                        exact ⟨r.takeWhile isJsonWs, rfl⟩
                      · intro m r₃ hsafe hm
                        obtain ⟨m₀, rfl⟩ : ∃ m₀, m = m₀ + 1 := ⟨m - 1, by omega⟩
                        have e₁ : ('{' :: (r.takeWhile isJsonWs ++ ['}'])) ++ r₃ =
                            '{' :: (r.takeWhile isJsonWs ++ '}' :: r₃) := by simp
                        rw [e₁]
                        simp only [parseValue, dropWs_cons '{' (by decide),
                          if_true, if_false,
                          dropWs_concat (r.takeWhile isJsonWs) hwr '}' (by decide)]
                        rw [if_neg h₁]
                    · rw [if_neg hc₂] at h₅
                      obtain ⟨p, hp, hrep⟩ := ihM r [] v rest h₅
                      rw [hp] at hdw₂
                      cases hpd : p.dropWhile isJsonWs with
                      | nil =>
                          have hall : ∀ x ∈ p, isJsonWs x = true :=
                            List.dropWhile_eq_nil_iff.mp hpd
                          rw [dropWs_concat p hall '}' (by decide)] at hdw₂
                          injection hdw₂ with he _
                          exact absurd he.symm hc₂
                      | cons d ds =>
                          rw [dropWhile_append_cons isJsonWs p d ds _ hpd] at hdw₂
                          injection hdw₂ with hdc _
                          refine ⟨cs.takeWhile isJsonWs, '{' :: (p ++ ['}']), ?_,
                            hw, by simp, ?_, ?_⟩
                          · conv_lhs => rw [hcs, hp]
                            simp
                          · intro o ho
                            exact ⟨p, rfl⟩
                          · intro m r₃ hsafe hm
                            obtain ⟨m₀, rfl⟩ : ∃ m₀, m = m₀ + 1 := ⟨m - 1, by omega⟩
                            have e₁ : ('{' :: (p ++ ['}'])) ++ r₃ =
                                '{' :: (p ++ '}' :: r₃) := by simp
                            rw [e₁]
                            simp only [parseValue, dropWs_cons '{' (by decide),
                              if_true, if_false,
                              dropWhile_append_cons isJsonWs p d ds _ hpd]
                            rw [if_neg h₁, if_neg (show ¬(d = '}') from
                              fun hdd => hc₂ (hdc ▸ hdd))]
                            refine hrep m₀ r₃ ?_
                            simp only [List.length_cons, List.length_append,
                              List.length_singleton] at hm ⊢
                            omega
              · rw [if_neg h₂] at h
                by_cases h₃ : c = '['
                · subst h₃
                  rw [if_pos rfl] at h
                  cases hdw₂ : r.dropWhile isJsonWs with
                  | nil =>
                      rw [hdw₂] at h
                      obtain ⟨p, hp, hno, hrep⟩ := ihE r [] v rest h
                      rw [hp] at hdw₂
                      exact (dropWs_no_close p rest ']' (by decide) hdw₂).elim
                  | cons c₂ r₂ =>
                      rw [hdw₂] at h
                      have h₅ : (if c₂ = ']' then some (Json.arr [], r₂)
                          else parseElems n r []) = some (v, rest) := h
                      by_cases hc₂ : c₂ = ']'
                      · subst hc₂
                        rw [if_pos rfl] at h₅
                        injection h₅ with h'
                        injection h' with hv hrest
                        subst hv; subst hrest
                        have hr := cs_split_ws r ']' r₂ hdw₂
                        have hwr : ∀ x ∈ r.takeWhile isJsonWs, isJsonWs x = true :=
                          fun x hx => List.mem_takeWhile_imp hx
                        refine ⟨cs.takeWhile isJsonWs,
                          '[' :: (r.takeWhile isJsonWs ++ [']']), ?_, hw, by simp,
                          ?_, ?_⟩
                        · conv_lhs => rw [hcs, hr]
                          simp
                        · intro o ho
                          exact Json.noConfusion ho
                        · intro m r₃ hsafe hm
                          obtain ⟨m₀, rfl⟩ : ∃ m₀, m = m₀ + 1 := ⟨m - 1, by omega⟩
                          have e₁ : ('[' :: (r.takeWhile isJsonWs ++ [']'])) ++ r₃ =
                              '[' :: (r.takeWhile isJsonWs ++ ']' :: r₃) := by simp
                          rw [e₁]
                          simp only [parseValue, dropWs_cons '[' (by decide),
                            if_true, if_false,
                            dropWs_concat (r.takeWhile isJsonWs) hwr ']' (by decide)]
                          rw [if_neg h₁, if_neg h₂]
                      · rw [if_neg hc₂] at h₅
                        obtain ⟨p, hp, hno, hrep⟩ := ihE r [] v rest h₅
                        rw [hp] at hdw₂
                        cases hpd : p.dropWhile isJsonWs with
                        | nil =>
                            have hall : ∀ x ∈ p, isJsonWs x = true :=
                              List.dropWhile_eq_nil_iff.mp hpd
                            rw [dropWs_concat p hall ']' (by decide)] at hdw₂
                            injection hdw₂ with he _
                            exact absurd he.symm hc₂
                        | cons d ds =>
                            rw [dropWhile_append_cons isJsonWs p d ds _ hpd] at hdw₂
                            injection hdw₂ with hdc _
                            refine ⟨cs.takeWhile isJsonWs, '[' :: (p ++ [']']), ?_,
                              hw, by simp, ?_, ?_⟩
                            · conv_lhs => rw [hcs, hp]
                              simp
                            · intro o ho
                              exact absurd ho (hno o)
                            · intro m r₃ hsafe hm
                              obtain ⟨m₀, rfl⟩ : ∃ m₀, m = m₀ + 1 := ⟨m - 1, by omega⟩
                              have e₁ : ('[' :: (p ++ [']'])) ++ r₃ =
                                  '[' :: (p ++ ']' :: r₃) := by simp
                              rw [e₁]
                              simp only [parseValue, dropWs_cons '[' (by decide),
                                if_true, if_false,
                                dropWhile_append_cons isJsonWs p d ds _ hpd]
                              rw [if_neg h₁, if_neg h₂,
                                if_neg (show ¬(d = ']') from
                                fun hdd => hc₂ (hdc ▸ hdd))]
                              refine hrep m₀ r₃ ?_
                              simp only [List.length_cons, List.length_append,
                                List.length_singleton] at hm ⊢
                              omega
                · rw [if_neg h₃] at h
                  by_cases h₄ : c = 't'
                  · subst h₄
                    rw [if_pos rfl] at h
                    cases r with
                    | nil => exact Option.noConfusion h
                    | cons x₁ t₁ =>
                    cases t₁ with
                    | nil => exact Option.noConfusion h
                    | cons x₂ t₂ =>
                    cases t₂ with
                    | nil => exact Option.noConfusion h
                    | cons x₃ r₄ =>
                    have h' : (if x₁ = 'r' ∧ x₂ = 'u' ∧ x₃ = 'e' then
                        some (Json.bool true, r₄) else none) = some (v, rest) := h
                    by_cases hc : x₁ = 'r' ∧ x₂ = 'u' ∧ x₃ = 'e'
                    · obtain ⟨hc₁, hc₂, hc₃⟩ := hc
                      subst hc₁; subst hc₂; subst hc₃
                      rw [if_pos ⟨rfl, rfl, rfl⟩] at h'
                      injection h' with h''
                      injection h'' with hv hrest
                      subst hv; subst hrest
                      refine ⟨cs.takeWhile isJsonWs, ['t', 'r', 'u', 'e'], ?_, hw,
                        by simp, ?_, ?_⟩
                      · conv_lhs => rw [hcs]
                        simp
                      · intro o ho; exact Json.noConfusion ho
                      · intro m r₃ hsafe hm
                        obtain ⟨m₀, rfl⟩ : ∃ m₀, m = m₀ + 1 := ⟨m - 1, by omega⟩
                        rfl
                    · rw [if_neg hc] at h'
                      exact Option.noConfusion h'
                  · rw [if_neg h₄] at h
                    by_cases h₅ : c = 'f'
                    · subst h₅
                      rw [if_pos rfl] at h
                      cases r with
                      | nil => exact Option.noConfusion h
                      | cons x₁ t₁ =>
                      cases t₁ with
                      | nil => exact Option.noConfusion h
                      | cons x₂ t₂ =>
                      cases t₂ with
                      | nil => exact Option.noConfusion h
                      | cons x₃ t₃ =>
                      cases t₃ with
                      | nil => exact Option.noConfusion h
                      | cons x₄ r₄ =>
                      have h' : (if x₁ = 'a' ∧ x₂ = 'l' ∧ x₃ = 's' ∧ x₄ = 'e' then
                          some (Json.bool false, r₄) else none) = some (v, rest) := h
                      by_cases hc : x₁ = 'a' ∧ x₂ = 'l' ∧ x₃ = 's' ∧ x₄ = 'e'
                      · obtain ⟨hc₁, hc₂, hc₃, hc₄⟩ := hc
                        subst hc₁; subst hc₂; subst hc₃; subst hc₄
                        rw [if_pos ⟨rfl, rfl, rfl, rfl⟩] at h'
                        injection h' with h''
                        injection h'' with hv hrest
                        subst hv; subst hrest
                        refine ⟨cs.takeWhile isJsonWs, ['f', 'a', 'l', 's', 'e'],
                          ?_, hw, by simp, ?_, ?_⟩
                        · conv_lhs => rw [hcs]
                          simp
                        · intro o ho; exact Json.noConfusion ho
                        · intro m r₃ hsafe hm
                          obtain ⟨m₀, rfl⟩ : ∃ m₀, m = m₀ + 1 := ⟨m - 1, by omega⟩
                          rfl
                      · rw [if_neg hc] at h'
                        exact Option.noConfusion h'
                    · rw [if_neg h₅] at h
                      by_cases h₆ : c = 'n'
                      · subst h₆
                        rw [if_pos rfl] at h
                        cases r with
                        | nil => exact Option.noConfusion h
                        | cons x₁ t₁ =>
                        cases t₁ with
                        | nil => exact Option.noConfusion h
                        | cons x₂ t₂ =>
                        cases t₂ with
                        | nil => exact Option.noConfusion h
                        | cons x₃ r₄ =>
                        have h' : (if x₁ = 'u' ∧ x₂ = 'l' ∧ x₃ = 'l' then
                            some (Json.null, r₄) else none) = some (v, rest) := h
                        by_cases hc : x₁ = 'u' ∧ x₂ = 'l' ∧ x₃ = 'l'
                        · obtain ⟨hc₁, hc₂, hc₃⟩ := hc
                          subst hc₁; subst hc₂; subst hc₃
                          rw [if_pos ⟨rfl, rfl, rfl⟩] at h'
                          injection h' with h''
                          injection h'' with hv hrest
                          subst hv; subst hrest
                          refine ⟨cs.takeWhile isJsonWs, ['n', 'u', 'l', 'l'],
                            ?_, hw, by simp, ?_, ?_⟩
                          · conv_lhs => rw [hcs]
                            simp
                          · intro o ho; exact Json.noConfusion ho
                          · intro m r₃ hsafe hm
                            obtain ⟨m₀, rfl⟩ : ∃ m₀, m = m₀ + 1 := ⟨m - 1, by omega⟩
                            rfl
                        · rw [if_neg hc] at h'
                          exact Option.noConfusion h'
                      · rw [if_neg h₆] at h
                        by_cases h₇ : c = '-' ∨ c.isDigit
                        · rw [if_pos h₇] at h
                          cases hnt : parseNumTok (c :: r) with
                          | none => rw [hnt] at h; exact Option.noConfusion h
                          | some q =>
                              obtain ⟨tok, r₂⟩ := q
                              rw [hnt] at h
                              injection h with h'
                              injection h' with hv hrest
                              subst hv; subst hrest
                              obtain ⟨hteq, hrep⟩ :=
                                parseNumTok_replay (c :: r) tok r₂ hnt
                              cases tok with
                              | nil =>
                                  have hz := hrep [] safeTail_nil
                                  exact Option.noConfusion hz
                              | cons t₀ ts =>
                                  rw [List.cons_append] at hteq
                                  injection hteq with he₁ he₂
                                  subst he₁
                                  refine ⟨cs.takeWhile isJsonWs, c :: ts, ?_, hw,
                                    by simp, ?_, ?_⟩
                                  · conv_lhs => rw [hcs, he₂]
                                    simp
                                  · intro o ho; exact Json.noConfusion ho
                                  · intro m r₃ hsafe hm
                                    obtain ⟨m₀, rfl⟩ : ∃ m₀, m = m₀ + 1 :=
                                      ⟨m - 1, by omega⟩
                                    have hcws : isJsonWs c = false := by
                                      rcases h₇ with hcm | hcd
                                      · subst hcm; decide
                                      · exact digit_not_ws c hcd
                                    rw [List.cons_append]
                                    simp only [parseValue, dropWs_cons c hcws]
                                    rw [if_neg h₁, if_neg h₂, if_neg h₃, if_neg h₄,
                                      if_neg h₅, if_neg h₆, if_pos h₇]
                                    rw [show c :: (ts ++ r₃) = (c :: ts) ++ r₃
                                      from rfl, hrep r₃ hsafe]
                        · rw [if_neg h₇] at h
                          exact Option.noConfusion h
      · -- parseMembers
        intro cs acc v rest h
        cases hdw : cs.dropWhile isJsonWs with
        | nil =>
            simp only [parseMembers, hdw] at h
            exact Option.noConfusion h
        | cons c r =>
            simp only [parseMembers, hdw] at h
            have hcs := cs_split_ws cs c r hdw
            have hw : ∀ x ∈ cs.takeWhile isJsonWs, isJsonWs x = true :=
              fun x hx => List.mem_takeWhile_imp hx
            by_cases h₁ : c = '"'
            case neg =>
              rw [if_neg h₁] at h
              exact Option.noConfusion h
            subst h₁
            rw [if_pos rfl] at h
            cases hsb : parseStringBody (r.length + 1) [] r with
            | none => rw [hsb] at h; exact Option.noConfusion h
            | some q =>
                obtain ⟨k, r₁⟩ := q
                rw [hsb] at h
                obtain ⟨bs, hbs, hsrep⟩ :=
                  parseStringBody_replay (r.length + 1) [] r k r₁ hsb
                have h₅ : (match r₁.dropWhile isJsonWs with
                    | [] => none
                    | c₂ :: r₂ =>
                        if c₂ = ':' then
                          (match parseValue n r₂ with
                           | some (v₀, r₃) =>
                               match r₃.dropWhile isJsonWs with
                               | [] => none
                               | c₃ :: r₄ =>
                                   if c₃ = ',' then
                                     parseMembers n r₄ (pyAssign acc k v₀)
                                   else if c₃ = '}' then
                                     some (Json.obj (pyAssign acc k v₀), r₄)
                                   else none
                           | none => none)
                        else none) = some (v, rest) := h
                cases hdw₂ : r₁.dropWhile isJsonWs with
                | nil => rw [hdw₂] at h₅; exact Option.noConfusion h₅
                | cons c₂ r₂ =>
                    rw [hdw₂] at h₅
                    have hr₁ := cs_split_ws r₁ c₂ r₂ hdw₂
                    have hw₁ : ∀ x ∈ r₁.takeWhile isJsonWs, isJsonWs x = true :=
                      fun x hx => List.mem_takeWhile_imp hx
                    have h₆ : (if c₂ = ':' then
                        (match parseValue n r₂ with
                         | some (v₀, r₃) =>
                             match r₃.dropWhile isJsonWs with
                             | [] => none
                             | c₃ :: r₄ =>
                                 if c₃ = ',' then
                                   parseMembers n r₄ (pyAssign acc k v₀)
                                 else if c₃ = '}' then
                                   some (Json.obj (pyAssign acc k v₀), r₄)
                                 else none
                         | none => none)
                        else none) = some (v, rest) := h₅
                    by_cases h₂ : c₂ = ':'
                    case neg =>
                      rw [if_neg h₂] at h₆
                      exact Option.noConfusion h₆
                    subst h₂
                    rw [if_pos rfl] at h₆
                    cases hpv : parseValue n r₂ with
                    | none => rw [hpv] at h₆; exact Option.noConfusion h₆
                    | some q₂ =>
                        obtain ⟨v₀, r₃⟩ := q₂
                        rw [hpv] at h₆
                        obtain ⟨w₀, b, hsplit, hw₀, hbne, hobj, hvrep⟩ :=
                          ihV r₂ v₀ r₃ hpv
                        have h₇ : (match r₃.dropWhile isJsonWs with
                            | [] => none
                            | c₃ :: r₄ =>
                                if c₃ = ',' then
                                  parseMembers n r₄ (pyAssign acc k v₀)
                                else if c₃ = '}' then
                                  some (Json.obj (pyAssign acc k v₀), r₄)
                                else none) = some (v, rest) := h₆
                        cases hdw₃ : r₃.dropWhile isJsonWs with
                        | nil => rw [hdw₃] at h₇; exact Option.noConfusion h₇
                        | cons c₃ r₄ =>
                            rw [hdw₃] at h₇
                            have h₈ : (if c₃ = ',' then
                                parseMembers n r₄ (pyAssign acc k v₀)
                                else if c₃ = '}' then
                                  some (Json.obj (pyAssign acc k v₀), r₄)
                                else none) = some (v, rest) := h₇
                            have hr₃ := cs_split_ws r₃ c₃ r₄ hdw₃
                            have hw₃ : ∀ x ∈ r₃.takeWhile isJsonWs,
                                isJsonWs x = true :=
                              fun x hx => List.mem_takeWhile_imp hx
                            by_cases h₃ : c₃ = ','
                            · subst h₃
                              rw [if_pos rfl] at h₈
                              obtain ⟨p₀, hp₀, hmrep⟩ :=
                                ihM r₄ (pyAssign acc k v₀) v rest h₈
                              refine ⟨cs.takeWhile isJsonWs ++ '"' :: (bs ++
                                (r₁.takeWhile isJsonWs ++ ':' :: (w₀ ++ (b ++
                                (r₃.takeWhile isJsonWs ++ ',' :: p₀))))), ?_, ?_⟩
                              · conv_lhs => rw [hcs, hbs, hr₁, hsplit, hr₃, hp₀]
                                simp
                              · intro m r₅ hm
                                obtain ⟨m₀, rfl⟩ : ∃ m₀, m = m₀ + 1 :=
                                  ⟨m - 1, by omega⟩
                                have e₁ : (cs.takeWhile isJsonWs ++ '"' :: (bs ++
                                    (r₁.takeWhile isJsonWs ++ ':' :: (w₀ ++ (b ++
                                    (r₃.takeWhile isJsonWs ++ ',' :: p₀)))))) ++
                                    '}' :: r₅ =
                                    cs.takeWhile isJsonWs ++ '"' :: (bs ++
                                    (r₁.takeWhile isJsonWs ++ ':' :: (w₀ ++ (b ++
                                    (r₃.takeWhile isJsonWs ++ ',' ::
                                    (p₀ ++ '}' :: r₅)))))) := by simp
                                rw [e₁, parseMembers_step m₀ _ bs _ _ acc k hw
                                  (fun m' r' hm' => hsrep m' r' hm') hw₁]
                                rw [parseValue_skip_ws m₀ w₀ hw₀,
                                  hvrep m₀ (r₃.takeWhile isJsonWs ++ ',' ::
                                    (p₀ ++ '}' :: r₅))
                                    (safeTail_ws_append _ hw₃ _
                                      (safeTail_cons ',' _ (by decide)))
                                    (by simp only [List.length_append,
                                      List.length_cons] at hm ⊢; omega)]
                                simp only [dropWs_concat (r₃.takeWhile isJsonWs)
                                  hw₃ ',' (by decide), if_true, eq_self_iff_true]
                                refine hmrep m₀ r₅ ?_
                                simp only [List.length_append,
                                  List.length_cons] at hm ⊢
                                omega
                            · by_cases h₄ : c₃ = '}'
                              · subst h₄
                                rw [if_neg h₃, if_pos rfl] at h₈
                                injection h₈ with h₉
                                injection h₉ with hv hrest
                                subst hv; subst hrest
                                refine ⟨cs.takeWhile isJsonWs ++ '"' :: (bs ++
                                  (r₁.takeWhile isJsonWs ++ ':' :: (w₀ ++ (b ++
                                  r₃.takeWhile isJsonWs)))), ?_, ?_⟩
                                · conv_lhs => rw [hcs, hbs, hr₁, hsplit, hr₃]
                                  simp
                                · intro m r₅ hm
                                  obtain ⟨m₀, rfl⟩ : ∃ m₀, m = m₀ + 1 :=
                                    ⟨m - 1, by omega⟩
                                  have e₁ : (cs.takeWhile isJsonWs ++ '"' :: (bs ++
                                      (r₁.takeWhile isJsonWs ++ ':' :: (w₀ ++ (b ++
                                      r₃.takeWhile isJsonWs))))) ++ '}' :: r₅ =
                                      cs.takeWhile isJsonWs ++ '"' :: (bs ++
                                      (r₁.takeWhile isJsonWs ++ ':' :: (w₀ ++ (b ++
                                      (r₃.takeWhile isJsonWs ++ '}' :: r₅))))) := by
                                    simp
                                  rw [e₁, parseMembers_step m₀ _ bs _ _ acc k hw
                                    (fun m' r' hm' => hsrep m' r' hm') hw₁]
                                  rw [parseValue_skip_ws m₀ w₀ hw₀,
                                    hvrep m₀ (r₃.takeWhile isJsonWs ++ '}' :: r₅)
                                      (safeTail_ws_append _ hw₃ _
                                        (safeTail_cons '}' _ (by decide)))
                                      (by simp only [List.length_append,
                                        List.length_cons] at hm ⊢; omega)]
                                  simp only [dropWs_concat (r₃.takeWhile isJsonWs)
                                    hw₃ '}' (by decide), if_true, eq_self_iff_true,
                                    if_neg (by decide : ¬((Char.ofNat 125) = ','))]
                              · rw [if_neg h₃, if_neg h₄] at h₈
                                exact Option.noConfusion h₈
      · -- parseElems
        intro cs acc v rest h
        have h₅ : (match parseValue n cs with
            | some (v₀, r₁) =>
                match r₁.dropWhile isJsonWs with
                | [] => none
                | c :: r₂ =>
                    if c = ',' then parseElems n r₂ (acc ++ [v₀])
                    else if c = ']' then some (Json.arr (acc ++ [v₀]), r₂)
                    else none
            | none => none) = some (v, rest) := h
        cases hpv : parseValue n cs with
        | none => rw [hpv] at h₅; exact Option.noConfusion h₅
        | some q =>
            obtain ⟨v₀, r₁⟩ := q
            rw [hpv] at h₅
            obtain ⟨w₀, b, hsplit, hw₀, hbne, hobj, hvrep⟩ := ihV cs v₀ r₁ hpv
            have h₆ : (match r₁.dropWhile isJsonWs with
                | [] => none
                | c :: r₂ =>
                    if c = ',' then parseElems n r₂ (acc ++ [v₀])
                    else if c = ']' then some (Json.arr (acc ++ [v₀]), r₂)
                    else none) = some (v, rest) := h₅
            cases hdw : r₁.dropWhile isJsonWs with
            | nil => rw [hdw] at h₆; exact Option.noConfusion h₆
            | cons c r₂ =>
                rw [hdw] at h₆
                have h₇ : (if c = ',' then parseElems n r₂ (acc ++ [v₀])
                    else if c = ']' then some (Json.arr (acc ++ [v₀]), r₂)
                    else none) = some (v, rest) := h₆
                have hr₁ := cs_split_ws r₁ c r₂ hdw
                have hw₁ : ∀ x ∈ r₁.takeWhile isJsonWs, isJsonWs x = true :=
                  fun x hx => List.mem_takeWhile_imp hx
                by_cases h₁ : c = ','
                · subst h₁
                  rw [if_pos rfl] at h₇
                  obtain ⟨p₀, hp₀, hno, herep⟩ := ihE r₂ (acc ++ [v₀]) v rest h₇
                  refine ⟨w₀ ++ (b ++ (r₁.takeWhile isJsonWs ++ ',' :: p₀)),
                    ?_, hno, ?_⟩
                  · conv_lhs => rw [hsplit, hr₁, hp₀]
                    simp
                  · intro m r₅ hm
                    obtain ⟨m₀, rfl⟩ : ∃ m₀, m = m₀ + 1 := ⟨m - 1, by omega⟩
                    have e₁ : (w₀ ++ (b ++ (r₁.takeWhile isJsonWs ++ ',' :: p₀)))
                        ++ ']' :: r₅ =
                        w₀ ++ (b ++ (r₁.takeWhile isJsonWs ++ ',' ::
                        (p₀ ++ ']' :: r₅))) := by simp
                    rw [e₁]
                    simp only [parseElems, parseValue_skip_ws m₀ w₀ hw₀,
                      hvrep m₀ (r₁.takeWhile isJsonWs ++ ',' :: (p₀ ++ ']' :: r₅))
                        (safeTail_ws_append _ hw₁ _
                          (safeTail_cons ',' _ (by decide)))
                        (by simp only [List.length_append, List.length_cons]
                              at hm ⊢
                            omega),
                      dropWs_concat (r₁.takeWhile isJsonWs) hw₁ ',' (by decide),
                      if_true, eq_self_iff_true]
                    refine herep m₀ r₅ ?_
                    simp only [List.length_append, List.length_cons] at hm ⊢
                    omega
                · by_cases h₂ : c = ']'
                  · subst h₂
                    rw [if_neg h₁, if_pos rfl] at h₇
                    injection h₇ with h₈
                    injection h₈ with hv hrest
                    subst hv; subst hrest
                    refine ⟨w₀ ++ (b ++ r₁.takeWhile isJsonWs), ?_,
                      fun o ho => Json.noConfusion ho, ?_⟩
                    · conv_lhs => rw [hsplit, hr₁]
                      simp
                    · intro m r₅ hm
                      obtain ⟨m₀, rfl⟩ : ∃ m₀, m = m₀ + 1 := ⟨m - 1, by omega⟩
                      have e₁ : (w₀ ++ (b ++ r₁.takeWhile isJsonWs)) ++ ']' :: r₅ =
                          w₀ ++ (b ++ (r₁.takeWhile isJsonWs ++ ']' :: r₅)) := by
                        simp
                      rw [e₁]
                      simp only [parseElems, parseValue_skip_ws m₀ w₀ hw₀,
                        hvrep m₀ (r₁.takeWhile isJsonWs ++ ']' :: r₅)
                          (safeTail_ws_append _ hw₁ _
                            (safeTail_cons ']' _ (by decide)))
                          (by simp only [List.length_append, List.length_cons]
                                at hm ⊢
                              omega),
                        dropWs_concat (r₁.takeWhile isJsonWs) hw₁ ']' (by decide),
                        if_true, eq_self_iff_true,
                        if_neg (by decide : ¬(']' = ','))]
                  · rw [if_neg h₁, if_neg h₂] at h₇
                    exact Option.noConfusion h₇

theorem jsonWs_isPySpace (c : Char) (h : isJsonWs c = true) : isPySpace c = true := by
  simp only [isJsonWs, Bool.or_eq_true, decide_eq_true_eq] at h
  rcases h with ((h | h) | h) | h <;> subst h <;> decide

theorem dropWhile_cons_neg (p : Char → Bool) (c : Char) (hc : p c = false)
    (x : List Char) : (c :: x).dropWhile p = c :: x := by
  rw [List.dropWhile_cons, hc]
  simp

/-- Python strip returns exactly the brace-delimited core when the
core is surrounded by whitespace only. -/
theorem pyStrip_brace_core (w mid rest : List Char)
    (hw : ∀ c ∈ w, isPySpace c = true)
    (hrest : ∀ c ∈ rest, isPySpace c = true) :
    pyStrip (w ++ (('{' :: (mid ++ ['}'])) ++ rest)) = '{' :: (mid ++ ['}']) := by
  unfold pyStrip
  rw [dropWhile_all_append isPySpace w _ hw, List.cons_append,
    dropWhile_cons_neg isPySpace '{' (by decide)]
  have e : ('{' :: ((mid ++ ['}']) ++ rest)).reverse =
      rest.reverse ++ ('}' :: (mid.reverse ++ ['{'])) := by
    simp
  rw [e, dropWhile_all_append isPySpace rest.reverse _
    (fun c hc => hrest c (List.mem_reverse.mp hc)),
    dropWhile_cons_neg isPySpace '}' (by decide)]
  simp

/-- Slicing from the first opening brace through the last closing
brace keeps a brace-delimited core unchanged. -/
theorem sliceBraces_core (mid : List Char) :
    sliceBraces ('{' :: (mid ++ ['}'])) = '{' :: (mid ++ ['}']) := by
  unfold sliceBraces lastBraceIdx
  have h₁ : ('{' :: (mid ++ ['}'])).findIdx? (· = '{') = some 0 := by
    rw [List.findIdx?_cons]
    simp
  have h₂ : ('{' :: (mid ++ ['}'])).reverse.findIdx? (· = '}') = some 0 := by
    have e : ('{' :: (mid ++ ['}'])).reverse = '}' :: (mid.reverse ++ ['{']) := by
      simp
    rw [e, List.findIdx?_cons]
    simp
  rw [h₁, h₂]
  have e₂ : ('{' :: (mid ++ ['}'])).length - 1 - 0 + 1 =
      ('{' :: (mid ++ ['}'])).length := by
    simp
  show List.drop 0 (List.take (('{' :: (mid ++ ['}'])).length - 1 - 0 + 1)
    ('{' :: (mid ++ ['}']))) = '{' :: (mid ++ ['}'])
  rw [e₂, List.take_length, List.drop_zero]

theorem ws_count_zero (w : List Char) (hw : ∀ c ∈ w, isJsonWs c = true)
    (c : Char) (hc : isJsonWs c = false) : w.count c = 0 := by
  rw [List.count_eq_zero]
  intro hmem
  rw [hw c hmem] at hc
  exact Bool.noConfusion hc

theorem braceBalance_of_le (cs : List Char)
    (h : cs.count '{' ≤ cs.count '}') : braceBalance cs = cs := by
  unfold braceBalance
  rw [if_neg (by omega)]

theorem commaCloseAt_ne (c : Char) (cs : List Char) (hc : ¬(c = ',')) :
    commaCloseAt (c :: cs) = false := by
  unfold commaCloseAt
  split
  next cs₂ heq =>
    injection heq with h₁ _
    exact absurd h₁ hc
  next => rfl

theorem commaStripGo_cons_ne (n : Nat) (c : Char) (cs : List Char)
    (hc : ¬(c = ',')) :
    commaStripGo (n + 1) (c :: cs) = c :: commaStripGo n cs := by
  conv_lhs => unfold commaStripGo
  split
  · rename_i heq
    omega
  · rename_i hnil
    simp at hnil
  · rename_i heq₁ heq₂
    injection heq₂ with h₁ _
    exact absurd h₁ hc
  · rename_i heq₁ heq₂
    injection heq₁ with hn
    injection heq₂ with hcc hcs
    rw [hn, hcc, hcs]

theorem commaStripGo_comma (n : Nat) (cs : List Char) :
    commaStripGo (n + 1) (',' :: cs) =
      (match cs.dropWhile isPySpace with
       | c :: rest =>
           if c = '}' || c = ']' then commaStripGo n (c :: rest)
           else ',' :: commaStripGo n cs
       | [] => ',' :: commaStripGo n cs) := by
  conv_lhs => unfold commaStripGo
  split
  · rename_i heq
    omega
  · rename_i hnil
    simp at hnil
  · rename_i heq₁ heq₂
    injection heq₁ with hn
    injection heq₂ with hh hcs
    rw [hn, hcs]
  · rename_i hno heq₁ heq₂
    injection heq₂ with hcc _
    exact (hno hcc.symm).elim

theorem commaCloseAt_comma (cs : List Char) :
    commaCloseAt (',' :: cs) =
      (match cs.dropWhile isPySpace with
       | c :: _ => (c = '}' || c = ']')
       | [] => false) := rfl

theorem commaStripGo_length (n : Nat) : ∀ cs : List Char,
    (commaStripGo n cs).length ≤ cs.length := by
  induction n with
  | zero => intro cs; exact le_refl _
  | succ n ih =>
      intro cs
      cases cs with
      | nil => exact le_refl _
      | cons c cs₀ =>
          by_cases hc : c = ','
          · subst hc
            rw [commaStripGo_comma]
            cases hdw : cs₀.dropWhile isPySpace with
            | nil =>
                simp only [List.length_cons]
                exact Nat.succ_le_succ (ih cs₀)
            | cons d rest =>
                have hdl : (d :: rest).length ≤ cs₀.length := by
                  rw [← hdw]
                  exact length_dropWhile_le _ _
                show (if d = '}' || d = ']' then commaStripGo n (d :: rest)
                  else ',' :: commaStripGo n cs₀).length ≤ (',' :: cs₀).length
                by_cases hb : (d = '}' || d = ']') = true
                · rw [if_pos hb]
                  have := ih (d :: rest)
                  simp only [List.length_cons] at hdl this ⊢
                  omega
                · rw [if_neg hb]
                  simp only [List.length_cons]
                  exact Nat.succ_le_succ (ih cs₀)
          · rw [commaStripGo_cons_ne n c cs₀ hc]
            simp only [List.length_cons]
            exact Nat.succ_le_succ (ih cs₀)

theorem commaStripGo_id_suffix : ∀ n, ∀ cs : List Char, cs.length ≤ n →
    commaStripGo n cs = cs → ∀ i, commaCloseAt (cs.drop i) = false := by
  intro n
  induction n with
  | zero =>
      intro cs hlen hid i
      have hnil : cs = [] := List.length_eq_zero.mp (Nat.le_zero.mp hlen)
      subst hnil
      rw [List.drop_nil]
      rfl
  | succ n ih =>
      intro cs hlen hid i
      cases cs with
      | nil => rw [List.drop_nil]; rfl
      | cons c cs₀ =>
          simp only [List.length_cons] at hlen
          by_cases hc : c = ','
          · subst hc
            rw [commaStripGo_comma] at hid
            cases hdw : cs₀.dropWhile isPySpace with
            | nil =>
                rw [hdw] at hid
                have hid₂ : ',' :: commaStripGo n cs₀ = ',' :: cs₀ := hid
                injection hid₂ with _ htail
                cases i with
                | zero =>
                    rw [List.drop_zero, commaCloseAt_comma, hdw]
                | succ j =>
                    rw [List.drop_succ_cons]
                    exact ih cs₀ (by omega) htail j
            | cons d rest =>
                rw [hdw] at hid
                by_cases hb : (d = '}' || d = ']') = true
                · exfalso
                  have hid₂ : commaStripGo n (d :: rest) = ',' :: cs₀ := by
                    rw [← hid]
                    show commaStripGo n (d :: rest) =
                      if d = '}' || d = ']' then commaStripGo n (d :: rest)
                      else ',' :: commaStripGo n cs₀
                    rw [if_pos hb]
                  have hl := commaStripGo_length n (d :: rest)
                  have hdl : (d :: rest).length ≤ cs₀.length := by
                    rw [← hdw]
                    exact length_dropWhile_le _ _
                  rw [hid₂] at hl
                  simp only [List.length_cons] at hl hdl
                  omega
                · have hid₂ : ',' :: commaStripGo n cs₀ = ',' :: cs₀ := by
                    rw [← hid]
                    show ',' :: commaStripGo n cs₀ =
                      if d = '}' || d = ']' then commaStripGo n (d :: rest)
                      else ',' :: commaStripGo n cs₀
                    rw [if_neg hb]
                  injection hid₂ with _ htail
                  cases i with
                  | zero =>
                      rw [List.drop_zero, commaCloseAt_comma, hdw]
                      exact Bool.eq_false_iff.mpr hb
                  | succ j =>
                      rw [List.drop_succ_cons]
                      exact ih cs₀ (by omega) htail j
          · rw [commaStripGo_cons_ne n c cs₀ hc] at hid
            injection hid with _ htail
            cases i with
            | zero => rw [List.drop_zero]; exact commaCloseAt_ne c cs₀ hc
            | succ j =>
                rw [List.drop_succ_cons]
                exact ih cs₀ (by omega) htail j

theorem commaStripGo_of_no_match : ∀ n, ∀ cs : List Char,
    (∀ i, commaCloseAt (cs.drop i) = false) → commaStripGo n cs = cs := by
  intro n
  induction n with
  | zero => intro cs _; rfl
  | succ n ih =>
      intro cs hall
      cases cs with
      | nil => rfl
      | cons c cs₀ =>
          have htail : ∀ i, commaCloseAt (cs₀.drop i) = false := by
            intro i
            have := hall (i + 1)
            rwa [List.drop_succ_cons] at this
          by_cases hc : c = ','
          · subst hc
            have h0 := hall 0
            rw [List.drop_zero, commaCloseAt_comma] at h0
            rw [commaStripGo_comma]
            cases hdw : cs₀.dropWhile isPySpace with
            | nil => rw [ih cs₀ htail]
            | cons d rest =>
                rw [hdw] at h0
                have h0₂ : (decide (d = '}') || decide (d = ']')) = false := h0
                show (if d = '}' || d = ']' then commaStripGo n (d :: rest)
                  else ',' :: commaStripGo n cs₀) = ',' :: cs₀
                rw [if_neg (by rw [h0₂]; exact Bool.false_ne_true), ih cs₀ htail]
          · rw [commaStripGo_cons_ne n c cs₀ hc, ih cs₀ htail]

theorem commaCloseAt_extend (t rest : List Char) (h : commaCloseAt t = true) :
    commaCloseAt (t ++ rest) = true := by
  cases t with
  | nil => exact Bool.noConfusion h
  | cons c t₀ =>
      by_cases hc : c = ','
      · subst hc
        rw [commaCloseAt_comma] at h
        cases hdw : t₀.dropWhile isPySpace with
        | nil => rw [hdw] at h; exact Bool.noConfusion h
        | cons d ds =>
            rw [hdw] at h
            rw [List.cons_append, commaCloseAt_comma,
              dropWhile_append_cons isPySpace t₀ d ds rest hdw]
            exact h
      · rw [commaCloseAt_ne c t₀ hc] at h
        exact Bool.noConfusion h

/-- The trailing-comma pass fixes no infix of a text it already
leaves unchanged. -/
theorem commaStrip_infix (w b rest : List Char)
    (hcomma : commaStrip (w ++ (b ++ rest)) = w ++ (b ++ rest)) :
    commaStrip b = b := by
  unfold commaStrip at hcomma ⊢
  have hall := commaStripGo_id_suffix (w ++ (b ++ rest)).length
    (w ++ (b ++ rest)) (le_refl _) hcomma
  refine commaStripGo_of_no_match b.length b ?_
  intro i
  by_cases hi : b.length ≤ i
  · rw [List.drop_eq_nil_of_le hi]
    rfl
  · cases hcb : commaCloseAt (b.drop i)
    · rfl
    · exfalso
      have hext : commaCloseAt ((b.drop i) ++ rest) = true :=
        commaCloseAt_extend _ rest hcb
      have hdrop : (w ++ (b ++ rest)).drop (w.length + i) = b.drop i ++ rest := by
        rw [List.drop_append i, List.drop_append_of_le_length (by omega)]
      have := hall (w.length + i)
      rw [hdrop, hext] at this
      exact Bool.noConfusion this

/-- C4 (amended): when a response already parses as a JSON object and
the fence-stripping and trailing-comma passes leave it unchanged and
its opening braces do not outnumber its closing braces, the repair
pipeline preserves the parse, yielding the identical object. -/
theorem c4_repair_preserves_wellformed (s : String) (o : PyDict)
    (hparse : jsonParse s.data = some (Json.obj o))
    (hfence : fenceStrip s.data = s.data)
    (hcomma : commaStrip s.data = s.data)
    (hbrace : s.data.count '{' ≤ s.data.count '}') :
    jsonParse (repairBlob s.data) = some (Json.obj o) := by
  unfold jsonParse at hparse
  cases hpv : parseValue (s.data.length + 1) s.data with
  | none => rw [hpv] at hparse; exact Option.noConfusion hparse
  | some q =>
      obtain ⟨v, rest⟩ := q
      rw [hpv] at hparse
      have hparse₂ : (if rest.dropWhile isJsonWs = [] then some v else none) =
          some (Json.obj o) := hparse
      by_cases hrw : rest.dropWhile isJsonWs = []
      case neg =>
        rw [if_neg hrw] at hparse₂
        exact Option.noConfusion hparse₂
      rw [if_pos hrw] at hparse₂
      injection hparse₂ with hv
      subst hv
      obtain ⟨w, b, hsplit, hw, hbne, hobj, hrep⟩ :=
        (parserReplay (s.data.length + 1)).1 s.data (Json.obj o) rest hpv
      obtain ⟨mid, hb⟩ := hobj o rfl
      subst hb
      have hrest : ∀ c ∈ rest, isJsonWs c = true :=
        List.dropWhile_eq_nil_iff.mp hrw
      unfold repairBlob
      rw [hfence, hsplit,
        pyStrip_brace_core w mid rest
          (fun c hc => jsonWs_isPySpace c (hw c hc))
          (fun c hc => jsonWs_isPySpace c (hrest c hc)),
        sliceBraces_core mid]
      have hcomma₂ : commaStrip ('{' :: (mid ++ ['}'])) = '{' :: (mid ++ ['}']) := by
        refine commaStrip_infix w _ rest ?_
        rw [← hsplit]
        exact hcomma
      rw [hcomma₂]
      have hc₁ : s.data.count '{' = ('{' :: (mid ++ ['}'])).count '{' := by
        rw [hsplit]
        simp only [List.count_append]
        rw [ws_count_zero w hw '{' (by decide),
          ws_count_zero rest hrest '{' (by decide)]
        omega
      have hc₂ : s.data.count '}' = ('{' :: (mid ++ ['}'])).count '}' := by
        rw [hsplit]
        simp only [List.count_append]
        rw [ws_count_zero w hw '}' (by decide),
          ws_count_zero rest hrest '}' (by decide)]
        omega
      rw [braceBalance_of_le _ (by rw [← hc₁, ← hc₂]; exact hbrace)]
      unfold jsonParse
      have hfinal := hrep (('{' :: (mid ++ ['}'])).length + 1) [] safeTail_nil
        (le_refl _)
      rw [List.append_nil] at hfinal
      rw [hfinal]
      simp

/-- Witness for the amended C4 theorem at a concrete well-formed
object string with surrounding whitespace. -/
theorem c4_repair_preserves_wellformed_witness :
    jsonParse (repairBlob " \x7b\"a\": 1\x7d ".data) =
      some (Json.obj [("a", Json.num "1")]) :=
  c4_repair_preserves_wellformed " \x7b\"a\": 1\x7d " [("a", Json.num "1")]
    rfl rfl rfl (by decide)
